import Mathlib

/-!
# blueis: a verification development

A shallow embedding of the RESP codec (`internal/resp/resp.go`), the command
handlers (`internal/handler/handler.go`), the append-only journal
(`internal/aof/aof.go`) and the connection / replay drivers (`main.go`).

Conventions.
* A Go `string` / `[]byte` is a list of bytes; a byte is a natural number
  below 256 (the code never does arithmetic on bytes).
* Go `int` / `int64` values are integers; the places where the 64-bit range
  matters (`strconv.ParseInt`, `now + seconds`) carry it explicitly.
* Package level maps are fields of an explicit state record.
* `time.Now().Unix()` is an explicit argument.
-/

namespace Blueis

/-! ## Bytes and the `strconv` helpers -/

abbrev Byte := Nat
abbrev Bytes := List Nat

/-- The bytes of an ASCII literal. -/
def str (s : String) : Bytes := s.toList.map Char.toNat

/-- Byte constants of `resp.go`: `STRING`, `ERROR`, `INTEGER`, `BULK`, `ARRAY`. -/
def STRING : Byte := 43
def ERROR : Byte := 45
def INTEGER : Byte := 58
def BULK : Byte := 36
def ARRAY : Byte := 42
/-- Carriage return and line feed. -/
def CR : Byte := 13
def LF : Byte := 10

/-- Decimal digits of a natural number, most significant first
(the loop of `strconv.FormatInt`, with the remaining budget explicit). -/
def natDigits : Nat → Nat → Bytes → Bytes
  | 0, _, acc => acc
  | f + 1, n, acc =>
    if n < 10 then (48 + n) :: acc else natDigits f (n / 10) ((48 + n % 10) :: acc)

/-- Decimal text of a natural number. -/
def natToDec (n : Nat) : Bytes := natDigits (n + 1) n []

/-- Model of `strconv.Itoa` / `strconv.FormatInt(_, 10)`. -/
def itoa (i : Int) : Bytes :=
  if i < 0 then 45 :: natToDec i.natAbs else natToDec i.natAbs

/-- Digit accumulation of `strconv.ParseUint` in base 10: fails on a byte
that is not `0`..`9`. -/
def parseDigits : Bytes → Nat → Option Nat
  | [], acc => some acc
  | c :: cs, acc => if 48 ≤ c ∧ c ≤ 57 then parseDigits cs (acc * 10 + (c - 48)) else none

/-- Model of `strconv.ParseInt(s, 10, 64)` (and of `strconv.Atoi` on a 64-bit
platform): optional sign, at least one digit, only digits, value in the
signed 64-bit range; `none` stands for a non-nil `err`. -/
def parseInt (s : Bytes) : Option Int :=
  match s with
  | [] => none
  | c :: t =>
    let neg := c == 45
    let ds := if c == 43 ∨ c == 45 then t else s
    match ds with
    | [] => none
    | _ :: _ =>
      match parseDigits ds 0 with
      | none => none
      | some n =>
        if neg then (if n ≤ 2 ^ 63 then some (-(n : Int)) else none)
        else (if n < 2 ^ 63 then some (n : Int) else none)

/-- Model of `strings.ToUpper` on ASCII text: `a`..`z` are mapped to
`A`..`Z`, every other byte is kept. -/
def toUpper (s : Bytes) : Bytes :=
  s.map (fun c => if 97 ≤ c ∧ c ≤ 122 then c - 32 else c)

/-! ## `resp.Value` -/

/-- The Go struct `Value { Typ, Str, Num, Bulk string; Array []Value }`. -/
inductive Value where
  | mk (Typ : String) (Str : Bytes) (Num : Bytes) (Bulk : Bytes) (Array : List Value)

namespace Value

def Typ : Value → String
  | mk t _ _ _ _ => t
def Str : Value → Bytes
  | mk _ s _ _ _ => s
def Num : Value → Bytes
  | mk _ _ n _ _ => n
def Bulk : Value → Bytes
  | mk _ _ _ b _ => b
def Array : Value → List Value
  | mk _ _ _ _ a => a

/-- The zero value `Value{}`. -/
def zero : Value := mk "" [] [] [] []
/-- The literal `Value{Typ: "Bulk", Bulk: b}`. -/
def bulk (b : Bytes) : Value := mk "Bulk" [] [] b []
/-- The literal `Value{Typ: "Array", Array: a}`. -/
def array (a : List Value) : Value := mk "Array" [] [] [] a
/-- The literal `Value{Typ: "string", Str: s}`. -/
def string (s : Bytes) : Value := mk "string" s [] [] []
/-- The literal `Value{Typ: "error", Str: s}`. -/
def error (s : Bytes) : Value := mk "error" s [] [] []
/-- The literal `Value{Typ: "null"}`. -/
def null : Value := mk "null" [] [] [] []

end Value

mutual
/-- Decidable equality of values (the type is nested through `List`). -/
def Value.decEq : (a b : Value) → Decidable (a = b)
  | .mk t1 s1 n1 b1 a1, .mk t2 s2 n2 b2 a2 =>
    if ht : t1 = t2 then
      if hs : s1 = s2 then
        if hn : n1 = n2 then
          if hb : b1 = b2 then
            match Value.decEqList a1 a2 with
            | isTrue ha => isTrue (by rw [ht, hs, hn, hb, ha])
            | isFalse ha => isFalse (fun h => ha (by injection h))
          else isFalse (fun h => hb (by injection h))
        else isFalse (fun h => hn (by injection h))
      else isFalse (fun h => hs (by injection h))
    else isFalse (fun h => ht (by injection h))
/-- Decidable equality of lists of values. -/
def Value.decEqList : (a b : List Value) → Decidable (a = b)
  | [], [] => isTrue rfl
  | [], _ :: _ => isFalse (fun h => by cases h)
  | _ :: _, [] => isFalse (fun h => by cases h)
  | x :: xs, y :: ys =>
    match Value.decEq x y with
    | isTrue hx =>
      match Value.decEqList xs ys with
      | isTrue hxs => isTrue (by rw [hx, hxs])
      | isFalse hxs => isFalse (fun h => hxs (by injection h))
    | isFalse hx => isFalse (fun h => hx (by injection h))
end

instance : DecidableEq Value := Value.decEq

/-! ## Encoding: `Value.Marshal` -/

def CRLF : Bytes := [CR, LF]

mutual
/-- Method `Value.Marshal` with `marshalArray`, `marshalBulk`, `marshalString`,
`marshalNull` and `marshalError` inlined at the `switch`. -/
def Value.Marshal : Value → Bytes
  | .mk typ s _ b arr =>
    if typ = "Array" then
      ARRAY :: (itoa (arr.length : Int) ++ CRLF ++ Value.marshalElems arr)
    else if typ = "Bulk" then
      BULK :: (itoa (b.length : Int) ++ CRLF ++ b ++ CRLF)
    else if typ = "string" then
      STRING :: (s ++ CRLF)
    else if typ = "null" then
      str "$-1\r\n"
    else if typ = "error" then
      ERROR :: (s ++ CRLF)
    else []
/-- The loop of `marshalArray`: the encodings of the elements, in order. -/
def Value.marshalElems : List Value → Bytes
  | [] => []
  | v :: vs => Value.Marshal v ++ Value.marshalElems vs
end

/-! ## Decoding: `bufio.Reader` and `Resp` -/

/-- Errors of the decoder. `EOF` is `io.EOF`, `NumError` the error of
`strconv.ParseInt`, `panic` a Go run-time panic (the process crashes), and
`fuel` marks an exhausted recursion budget of the model (shown unreachable
for `Resp.Read`). -/
inductive Err where
  | EOF
  | NumError
  | panic
  | fuel
  deriving DecidableEq, Repr

/-- Size of the buffer of `bufio.NewReader` (`defaultBufSize`). -/
def defaultBufSize : Nat := 4096

/-- A `bufio.Reader` over a source whose bytes are all available (a regular
file, an in-memory reader): `buf` are the buffered unread bytes, `src` the
bytes the source has not delivered yet. -/
structure Reader where
  buf : Bytes
  src : Bytes
  deriving DecidableEq, Repr

/-- The reader `NewResp(rd)` starts with: nothing buffered. -/
def NewResp (x : Bytes) : Reader := ⟨[], x⟩

/-- All unread bytes. -/
def Reader.rest (r : Reader) : Bytes := r.buf ++ r.src

/-- Result of a read: a value or an error, with the reader afterwards. -/
abbrev Res (α : Type) := Except (Err × Reader) (α × Reader)

/-- Method `bufio.Reader.ReadByte`: when the buffer is empty it is refilled with up
to `defaultBufSize` bytes of the source; `io.EOF` when nothing is left. -/
def Reader.ReadByte (r : Reader) : Res Byte :=
  match r.buf with
  | b :: bs => .ok (b, ⟨bs, r.src⟩)
  | [] =>
    match r.src.take defaultBufSize with
    | [] => .error (Err.EOF, r)
    | b :: bs => .ok (b, ⟨bs, r.src.drop defaultBufSize⟩)

/-- The slice `p` after `p := make([]byte, n); reader.Read(p)` and the
reader afterwards. `bufio.Reader.Read` copies what is buffered (at most `n`
bytes); with an empty buffer it does one read of the source, directly into
`p` when `n` is at least the buffer size and through the buffer otherwise.
Bytes of `p` that were not filled keep their zero value. -/
def Reader.ReadMake (r : Reader) (n : Nat) : Bytes × Reader :=
  if n = 0 then ([], r)
  else
    match r.buf with
    | [] =>
      if defaultBufSize ≤ n then
        (r.src.take n ++ List.replicate (n - (r.src.take n).length) 0, ⟨[], r.src.drop n⟩)
      else
        let b := r.src.take defaultBufSize
        (b.take n ++ List.replicate (n - (b.take n).length) 0,
          ⟨b.drop n, r.src.drop defaultBufSize⟩)
    | _ :: _ =>
      (r.buf.take n ++ List.replicate (n - (r.buf.take n).length) 0, ⟨r.buf.drop n, r.src⟩)

/-- The loop of `Resp.ReadLine`: append bytes to `line` until the byte before
the last one is a carriage return, then drop the last two bytes. The count
`n` of the source is the number of bytes consumed; every caller discards it. -/
def readLineLoop : Nat → Reader → Bytes → Res Bytes
  | 0, r, _ => .error (Err.fuel, r)
  | f + 1, r, line =>
    match r.ReadByte with
    | .error e => .error e
    | .ok (b, r1) =>
      let line1 := line ++ [b]
      if 2 ≤ line1.length ∧ line1.getD (line1.length - 2) 0 = CR then
        .ok (line1.take (line1.length - 2), r1)
      else readLineLoop f r1 line1

/-- Method `Resp.ReadLine`. -/
def Reader.ReadLine (r : Reader) : Res Bytes :=
  readLineLoop (r.rest.length + 1) r []

/-- Method `Resp.ReadInteger`. -/
def Reader.ReadInteger (r : Reader) : Res Int :=
  match r.ReadLine with
  | .error e => .error e
  | .ok (line, r1) =>
    match parseInt line with
    | none => .error (Err.NumError, r1)
    | some v => .ok (v, r1)

/-- The largest length `make([]byte, len)` accepts on a 64-bit platform
(`maxAlloc` of the Go runtime, 2^48 bytes); a longer slice is a run-time
panic. Whether the machine has that much memory is outside the model. -/
def maxAlloc : Int := 2 ^ 48

/-- Method `Resp.ReadBulk`: a length that is negative or above `maxAlloc`
makes `make([]byte, len)` panic; the result of `reader.Read` and the result
of the final `ReadLine` (its error included) are discarded. -/
def Reader.ReadBulk (r : Reader) : Res Value :=
  match r.ReadInteger with
  | .error e => .error e
  | .ok (len, r1) =>
    if len < 0 ∨ len > maxAlloc then .error (Err.panic, r1)
    else
      let (bulk, r2) := r1.ReadMake len.toNat
      match r2.ReadLine with
      | .error (_, r3) => .ok (Value.bulk bulk, r3)
      | .ok (_, r3) => .ok (Value.bulk bulk, r3)

/-- The loop `for i := 0; i < len; i++` of `Resp.ReadArray`, with `rd` the
recursive call `r.Read()` and `n` the iterations left. -/
def readElems (rd : Reader → Res Value) : Nat → Reader → List Value → Res (List Value)
  | 0, r, acc => .ok (acc, r)
  | n + 1, r, acc =>
    match rd r with
    | .error e => .error e
    | .ok (v, r1) => readElems rd n r1 (acc ++ [v])

/-- Method `Resp.Read` with `Resp.ReadArray` inlined, with a budget for the nesting
depth. An unknown marker byte yields the zero `Value` and no error. -/
def readValue : Nat → Reader → Res Value
  | 0, r => .error (Err.fuel, r)
  | f + 1, r =>
    match r.ReadByte with
    | .error e => .error e
    | .ok (c, r1) =>
      if c = ARRAY then
        match r1.ReadInteger with
        | .error e => .error e
        | .ok (len, r2) =>
          match readElems (readValue f) len.toNat r2 [] with
          | .error e => .error e
          | .ok (vs, r3) => .ok (Value.array vs, r3)
      else if c = BULK then r1.ReadBulk
      else .ok (Value.zero, r1)

/-- Method `Resp.Read`: every nested call consumes a byte first, so the number of
unread bytes bounds the depth. -/
def Reader.Read (r : Reader) : Res Value :=
  readValue (r.rest.length + 1) r

instance instDecEqExcept {ε α : Type} [DecidableEq ε] [DecidableEq α] :
    DecidableEq (Except ε α)
  | .ok a, .ok b => if h : a = b then isTrue (congrArg _ h) else isFalse (fun e => h (by injection e))
  | .error a, .error b =>
    if h : a = b then isTrue (congrArg _ h) else isFalse (fun e => h (by injection e))
  | .ok _, .error _ => isFalse (fun e => by cases e)
  | .error _, .ok _ => isFalse (fun e => by cases e)

/-! ## The sorted set used by `ZADD`, `ZRANGE`, `ZREM` -/

/-- Go string comparison `a <= b`: bytewise lexicographic. -/
def bytesLe : Bytes → Bytes → Bool
  | [], _ => true
  | _ :: _, [] => false
  | a :: as, b :: bs => decide (a < b) || (decide (a = b) && bytesLe as bs)

/-- An entry of a sorted set: member and score. -/
structure Item where
  member : Bytes
  score : Int
  deriving DecidableEq, Repr

/-- The ordering key of the spec: score ascending, then member ascending. -/
def itemLe (a b : Item) : Prop :=
  a.score < b.score ∨ (a.score = b.score ∧ bytesLe a.member b.member = true)

instance : DecidableRel itemLe := fun a b =>
  inferInstanceAs (Decidable (a.score < b.score ∨ (a.score = b.score ∧ bytesLe a.member b.member = true)))

theorem bytesLe_total : ∀ a b : Bytes, bytesLe a b = true ∨ bytesLe b a = true
  | [], _ => Or.inl rfl
  | _ :: _, [] => Or.inr rfl
  | a :: as, b :: bs => by
    have ih := bytesLe_total as bs
    simp only [bytesLe, Bool.or_eq_true, Bool.and_eq_true, decide_eq_true_eq]
    rcases Nat.lt_trichotomy a b with h | h | h
    · exact Or.inl (Or.inl h)
    · rcases ih with h1 | h1
      · exact Or.inl (Or.inr ⟨h, h1⟩)
      · exact Or.inr (Or.inr ⟨h.symm, h1⟩)
    · exact Or.inr (Or.inl h)

theorem bytesLe_trans : ∀ a b c : Bytes, bytesLe a b = true → bytesLe b c = true →
    bytesLe a c = true
  | [], _, _ => fun _ _ => by simp [bytesLe]
  | _ :: _, [], _ => fun h _ => by simp [bytesLe] at h
  | _ :: _, _ :: _, [] => fun _ h => by simp [bytesLe] at h
  | a :: as, b :: bs, c :: cs => by
    have ih := bytesLe_trans as bs cs
    simp only [bytesLe, Bool.or_eq_true, Bool.and_eq_true, decide_eq_true_eq]
    rintro (h1 | ⟨h1, h1'⟩) (h2 | ⟨h2, h2'⟩)
    · exact Or.inl (by omega)
    · exact Or.inl (by omega)
    · exact Or.inl (by omega)
    · exact Or.inr ⟨by omega, ih h1' h2'⟩

instance : IsTotal Item itemLe where
  total a b := by
    unfold itemLe
    rcases lt_trichotomy a.score b.score with h | h | h
    · exact Or.inl (Or.inl h)
    · rcases bytesLe_total a.member b.member with h1 | h1
      · exact Or.inl (Or.inr ⟨h, h1⟩)
      · exact Or.inr (Or.inr ⟨h.symm, h1⟩)
    · exact Or.inr (Or.inl h)

instance : IsTrans Item itemLe where
  trans a b c := by
    unfold itemLe
    rintro (h1 | ⟨h1, h1'⟩) (h2 | ⟨h2, h2'⟩)
    · exact Or.inl (by omega)
    · exact Or.inl (by omega)
    · exact Or.inl (by omega)
    · exact Or.inr ⟨by omega, bytesLe_trans _ _ _ h1' h2'⟩

/-- Modelled from the spec: the sorted set of the library
`github.com/wangjia184/sortedset`, whose code is not part of the repository
sources. Following the spec (data model, 4.4 and design notes) it is an
ordered collection of (member, score) entries with unique members, kept in
ascending (score, member) order, with the operations upsert by member,
remove by member, count, and retrieval of the entries whose rank lies in an
inclusive range. -/
structure SortedSet where
  items : List Item
  sorted : items.Sorted itemLe
  nodup : (items.map Item.member).Nodup

instance : DecidableEq SortedSet := fun a b =>
  if h : a.items = b.items then isTrue (by cases a; cases b; simp_all)
  else isFalse (fun e => h (by rw [e]))

/-- Modelled from the spec: `sortedset.New()`, the empty set. -/
def SortedSet.New : SortedSet := ⟨[], List.sorted_nil, List.nodup_nil⟩

/-- Modelled from the spec: `GetByKey`, the entry of a member (`nil` when absent). -/
def SortedSet.GetByKey (ss : SortedSet) (m : Bytes) : Option Item :=
  ss.items.find? (fun it => it.member = m)

/-- Modelled from the spec: `GetCount`, the number of members. -/
def SortedSet.GetCount (ss : SortedSet) : Int := (ss.items.length : Int)

/-- The entries of other members. -/
def dropMember (m : Bytes) (l : List Item) : List Item :=
  l.filter (fun it => it.member ≠ m)

theorem mem_dropMember {m : Bytes} {l : List Item} {x : Item} :
    x ∈ dropMember m l ↔ x ∈ l ∧ x.member ≠ m := by
  simp [dropMember]

theorem dropMember_nodup (m : Bytes) (l : List Item) (h : (l.map Item.member).Nodup) :
    ((dropMember m l).map Item.member).Nodup := by
  unfold dropMember
  exact List.Nodup.sublist (List.Sublist.map _ (List.filter_sublist l)) h

/-- Modelled from the spec: `AddOrUpdate(member, score, nil)`, upsert by
member: an existing entry of the member is replaced, the new entry takes its
place in the order. -/
def SortedSet.AddOrUpdate (ss : SortedSet) (m : Bytes) (sc : Int) : SortedSet where
  items := (dropMember m ss.items).orderedInsert itemLe ⟨m, sc⟩
  sorted := List.Sorted.orderedInsert _ _ (List.Sorted.filter _ ss.sorted)
  nodup := by
    have hp := (List.perm_orderedInsert itemLe ⟨m, sc⟩ (dropMember m ss.items)).map Item.member
    rw [hp.nodup_iff, List.map_cons, List.nodup_cons]
    refine ⟨?_, dropMember_nodup m _ ss.nodup⟩
    simp only [List.mem_map, not_exists, not_and]
    intro x hx
    exact (mem_dropMember.mp hx).2

/-- Modelled from the spec: `Remove(member)`, the removed entry (`nil` when
the member is absent) and the set without it. -/
def SortedSet.Remove (ss : SortedSet) (m : Bytes) : Option Item × SortedSet :=
  (ss.GetByKey m,
    ⟨dropMember m ss.items, List.Sorted.filter _ ss.sorted, dropMember_nodup m _ ss.nodup⟩)

/-- Modelled from the spec: `GetByRankRange(start, end, false)`, the entries
whose 1-based rank lies in the inclusive range `[start, end]`, in rank order.
The spec is silent on ranks outside the set; there the model follows the
contract of the library: a negative rank counts from the end (`-1` is the
last entry), a rank that is then still not positive is taken as 1, and when
`start` exceeds `end` the range from `end` to `start` is returned in reverse
order. -/
def SortedSet.GetByRankRange (ss : SortedSet) (start stop : Int) : List Item :=
  let n : Int := ss.items.length
  let start1 := if start < 0 then n + start + 1 else start
  let stop1 := if stop < 0 then n + stop + 1 else stop
  let start2 := if start1 ≤ 0 then 1 else start1
  let stop2 := if stop1 ≤ 0 then 1 else stop1
  let lo := if start2 > stop2 then stop2 else start2
  let hi := if start2 > stop2 then start2 else stop2
  let nodes :=
    (ss.items.enum.filter (fun p => lo ≤ (p.1 : Int) + 1 ∧ (p.1 : Int) + 1 ≤ hi)).map Prod.snd
  if start2 > stop2 then nodes.reverse else nodes

/-! ## The data store and the handlers (`handler.go`) -/

/-- Go 64-bit signed arithmetic: the result of `+` / `-` on `int64` wraps. -/
def wrap64 (x : Int) : Int := (x + 2 ^ 63) % 2 ^ 64 - 2 ^ 63

/-- A Go map with keys of type `string`. -/
abbrev GoMap (α : Type) := Bytes → Option α

/-- The assignment `m[k] = v`. -/
def GoMap.set {α : Type} (m : GoMap α) (k : Bytes) (v : α) : GoMap α :=
  fun k1 => if k1 = k then some v else m k1

/-- The statement `delete(m, k)`. -/
def GoMap.delete {α : Type} (m : GoMap α) (k : Bytes) : GoMap α :=
  fun k1 => if k1 = k then none else m k1

/-- The inner map of a hash, as the list of its (field, value) entries in
order of first insertion (Go leaves the iteration order of a map open). -/
abbrev Hash := List (Bytes × Bytes)

/-- The lookup `m[field]` of an inner map. -/
def Hash.get (h : Hash) (f : Bytes) : Option Bytes :=
  (h.find? (fun p => p.1 = f)).map Prod.snd

/-- The assignment `m[field] = value` of an inner map. -/
def Hash.set : Hash → Bytes → Bytes → Hash
  | [], f, v => [(f, v)]
  | p :: ps, f, v => if p.1 = f then (f, v) :: ps else p :: Hash.set ps f v

/-- The package level maps `SETs`, `HSETs`, `Expiry`, `ZSETs`. -/
structure State where
  SETs : GoMap Bytes
  HSETs : GoMap Hash
  Expiry : GoMap Int
  ZSETs : GoMap SortedSet

/-- The state at process start: four empty maps. -/
def State.empty : State := ⟨fun _ => none, fun _ => none, fun _ => none, fun _ => none⟩

/-- The `Bulk` field of `args[i]`; the handlers index only below `len(args)`. -/
def argBulk (args : List Value) (i : Nat) : Bytes := (args.getD i Value.zero).Bulk

/-- Handler `ping`. -/
def ping (args : List Value) (s : State) : Value × State :=
  if args.length = 0 then (Value.string (str "PONG"), s)
  else (Value.string (argBulk args 0), s)

/-- Handler `set`. -/
def set (args : List Value) (s : State) : Value × State :=
  if args.length ≠ 2 then
    (Value.error (str "Wrong number of arguments for SET command"), s)
  else
    let key := argBulk args 0
    let value := argBulk args 1
    (Value.string (str "OK"), { s with SETs := s.SETs.set key value })

/-- Function `isExpired`, with `now` the value of `time.Now().Unix()`. -/
def isExpired (key : Bytes) (now : Int) (s : State) : Bool :=
  match s.Expiry key with
  | none => false
  | some exp => decide (now > exp)

/-- Function `cleanupIfExpired`. -/
def cleanupIfExpired (key : Bytes) (now : Int) (s : State) : State :=
  if isExpired key now s then
    { s with SETs := s.SETs.delete key, HSETs := s.HSETs.delete key,
             Expiry := s.Expiry.delete key }
  else s

/-- Handler `get`. -/
def get (args : List Value) (now : Int) (s : State) : Value × State :=
  if args.length ≠ 1 then
    (Value.error (str "Wrong number of arguments for GET command"), s)
  else
    let key := argBulk args 0
    let s1 := cleanupIfExpired key now s
    match s1.SETs key with
    | none => (Value.null, s1)
    | some value => (Value.bulk value, s1)

/-- Handler `hset`. -/
def hset (args : List Value) (s : State) : Value × State :=
  if args.length ≠ 3 then
    (Value.error (str "Wrong number of arguments for HSET command"), s)
  else
    let hash := argBulk args 0
    let key := argBulk args 1
    let value := argBulk args 2
    let m : Hash := match s.HSETs hash with
      | none => []
      | some m => m
    (Value.string (str "OK"), { s with HSETs := s.HSETs.set hash (m.set key value) })

/-- Handler `hget`. -/
def hget (args : List Value) (now : Int) (s : State) : Value × State :=
  if args.length ≠ 2 then
    (Value.error (str "Wrong number of arguments for HGET command"), s)
  else
    let hash := argBulk args 0
    let key := argBulk args 1
    let s1 := cleanupIfExpired hash now s
    match s1.HSETs hash with
    | none => (Value.null, s1)
    | some m =>
      match m.get key with
      | none => (Value.null, s1)
      | some value => (Value.bulk value, s1)

/-- Handler `hgetAll`; the pairs are listed in the order of the entry list. -/
def hgetAll (args : List Value) (now : Int) (s : State) : Value × State :=
  if args.length ≠ 1 then
    (Value.error (str "Wrong number of arguments for HGETALL command"), s)
  else
    let hash := argBulk args 0
    let s1 := cleanupIfExpired hash now s
    match s1.HSETs hash with
    | none => (Value.array [], s1)
    | some val => (Value.array (val.flatMap (fun p => [Value.bulk p.1, Value.bulk p.2])), s1)

/-- Handler `command`. -/
def command (_args : List Value) (s : State) : Value × State :=
  (Value.array [], s)

/-- Handler `expire`. -/
def expire (args : List Value) (now : Int) (s : State) : Value × State :=
  if args.length ≠ 2 then
    (Value.error (str "Wrong number of arguments for EXPIRE command"), s)
  else
    let key := argBulk args 0
    match parseInt (argBulk args 1) with
    | none => (Value.error (str "Invalid seconds value for EXPIRE command"), s)
    | some seconds =>
      if (s.SETs key).isNone ∧ (s.HSETs key).isNone then (Value.string (str "0"), s)
      else
        let expiryTime := wrap64 (now + seconds)
        (Value.string (str "1"), { s with Expiry := s.Expiry.set key expiryTime })

/-- Handler `ttl`. -/
def ttl (args : List Value) (now : Int) (s : State) : Value × State :=
  if args.length ≠ 1 then
    (Value.error (str "Wrong number of arguments for TTL command"), s)
  else
    let key := argBulk args 0
    match s.Expiry key with
    | none => (Value.string (str "-1"), s)
    | some exp =>
      let ttl := wrap64 (exp - now)
      if ttl < 0 then (Value.string (str "-2"), s)
      else (Value.string (itoa ttl), s)

/-- The loop `for i := 1; i < len(args); i += 2` of `zadd` over the
remaining arguments `args[i:]`: the result is `none` when a score does not
parse (the pairs before it stay applied), else the final `count`. The arity
check of `zadd` makes the remaining arguments come in pairs. -/
def zaddLoop : List Value → SortedSet → Int → Option Int × SortedSet
  | sc :: m :: rest, ss, count =>
    match parseInt sc.Bulk with
    | none => (none, ss)
    | some score =>
      let member := m.Bulk
      let check := ss.GetByKey member
      zaddLoop rest (ss.AddOrUpdate member score) (if check.isNone then count + 1 else count)
  | _, ss, count => (some count, ss)

/-- Handler `zadd`. The set is created and stored before the loop, and the
loop mutates it through the stored pointer. -/
def zadd (args : List Value) (s : State) : Value × State :=
  if args.length < 3 ∨ args.length % 2 = 0 then
    (Value.error (str "Wrong number of arguments for ZADD command"), s)
  else
    let key := argBulk args 0
    let ss := match s.ZSETs key with
      | none => SortedSet.New
      | some ss => ss
    match zaddLoop (args.drop 1) ss 0 with
    | (none, ss1) =>
      (Value.error (str "Invalid score for ZADD"), { s with ZSETs := s.ZSETs.set key ss1 })
    | (some count, ss1) =>
      (Value.string (itoa count), { s with ZSETs := s.ZSETs.set key ss1 })

/-- Handler `zrange`. -/
def zrange (args : List Value) (s : State) : Value × State :=
  if args.length < 3 ∨ args.length > 4 then
    (Value.error (str "Wrong number of arguments for ZRANGE command"), s)
  else
    let key := argBulk args 0
    match parseInt (argBulk args 1), parseInt (argBulk args 2) with
    | some l, some r =>
      let withscores := decide (args.length = 4)
      match s.ZSETs key with
      | none => (Value.array [], s)
      | some ss =>
        let size := ss.GetCount
        let l := if l < 0 then size + l else l
        let r := if r < 0 then size + r else r
        let r := if r ≥ size then size - 1 else r
        if l > r ∨ l ≥ size then (Value.array [], s)
        else
          let elements := ss.GetByRankRange (l + 1) (r + 1)
          let ans := elements.flatMap (fun it =>
            if withscores then [Value.bulk it.member, Value.bulk (itoa it.score)]
            else [Value.bulk it.member])
          (Value.array ans, s)
    | _, _ => (Value.error (str "Invalid range for ZRANGE command"), s)

/-- The loop `for i := 1; i < len(args); i++` of `zrem` over `args[i:]`. -/
def zremLoop : List Value → SortedSet → Int → Int × SortedSet
  | [], ss, count => (count, ss)
  | a :: rest, ss, count =>
    let (removed, ss1) := ss.Remove a.Bulk
    zremLoop rest ss1 (if removed.isSome then count + 1 else count)

/-- Handler `zrem`. -/
def zrem (args : List Value) (s : State) : Value × State :=
  if args.length < 2 then
    (Value.error (str "Wrong number of arguments for ZREM command"), s)
  else
    let key := argBulk args 0
    match s.ZSETs key with
    | none => (Value.string (str "0"), s)
    | some ss =>
      let (count, ss1) := zremLoop (args.drop 1) ss 0
      (Value.string (itoa count), { s with ZSETs := s.ZSETs.set key ss1 })

/-- A handler: arguments, the clock and the store in, reply and store out. -/
abbrev Handler := List Value → Int → State → Value × State

/-- The registry `Handlers`. -/
def Handlers (name : Bytes) : Option Handler :=
  if name = str "PING" then some (fun a _ s => ping a s)
  else if name = str "SET" then some (fun a _ s => set a s)
  else if name = str "GET" then some get
  else if name = str "HSET" then some (fun a _ s => hset a s)
  else if name = str "HGET" then some hget
  else if name = str "HGETALL" then some hgetAll
  else if name = str "COMMAND" then some (fun a _ s => command a s)
  else if name = str "EXPIRE" then some expire
  else if name = str "TTL" then some ttl
  else if name = str "ZADD" then some (fun a _ s => zadd a s)
  else if name = str "ZRANGE" then some (fun a _ s => zrange a s)
  else if name = str "ZREM" then some (fun a _ s => zrem a s)
  else none

/-! ## The journal (`aof.go`) and the drivers (`main.go`) -/

/-- Method `Aof.Write`: the encoding of the record is appended to the file (the
write is taken to succeed; its error is only logged by the callers). -/
def AofWrite (file : Bytes) (value : Value) : Bytes := file ++ value.Marshal

/-- Function `HandleExpireWrite`, with `now` the value of `time.Now().Unix()`. -/
def HandleExpireWrite (file : Bytes) (args : List Value) (now : Int) : Bytes :=
  if args.length = 2 then
    match parseInt (argBulk args 1) with
    | none => file
    | some secondsInt =>
      let expiryTime := wrap64 (now + secondsInt)
      AofWrite file (Value.array
        [Value.bulk (str "EXPIRESAT"), Value.bulk (argBulk args 0), Value.bulk (itoa expiryTime)])
  else file

/-- The store together with the contents of the journal file. -/
structure Server where
  state : State
  file : Bytes

/-- One iteration of the loop of `handleConnection` after a successful
`Read`: the reply written to the client (`none` when the request is skipped
without a reply) and the server afterwards. `nowJ` is the clock read by
`HandleExpireWrite`, `nowH` the clock read by the handler. -/
def handleRequest (value : Value) (nowJ nowH : Int) (sv : Server) : Option Value × Server :=
  if value.Typ ≠ "Array" then (none, sv)
  else if value.Array.length = 0 then (none, sv)
  else
    let command := toUpper (argBulk value.Array 0)
    let args := value.Array.drop 1
    match Handlers command with
    | none => (some (Value.string []), sv)
    | some handler =>
      let file :=
        if command = str "SET" ∨ command = str "HSET" ∨ command = str "ZADD" then
          AofWrite sv.file value
        else if command = str "EXPIRE" then HandleExpireWrite sv.file args nowJ
        else sv.file
      let (result, st) := handler args nowH sv.state
      (some result, ⟨st, file⟩)

/-- The callback `main` passes to `Aof.Read`. Indexing `value.Array[0]` of an
empty array is a run-time panic. `now` is the clock the handlers read. -/
def replayCallback (value : Value) (now : Int) (s : State) : Except Err State :=
  match value.Array with
  | [] => .error Err.panic
  | first :: args =>
    let command := toUpper first.Bulk
    if command = str "EXPIRESAT" then
      if args.length = 2 then
        match parseInt (argBulk args 1) with
        | none => .ok s
        | some timestamp => .ok { s with Expiry := s.Expiry.set (argBulk args 0) timestamp }
      else .ok s
    else
      match Handlers command with
      | none => .ok s
      | some handler => .ok (handler args now s).2

/-- The loop of `Aof.Read`: a decoded value goes to the callback, `io.EOF`
ends the loop, any other error is logged and the loop continues. -/
def replayLoop : Nat → Reader → Int → State → Except Err State
  | 0, _, _, _ => .error Err.fuel
  | f + 1, r, now, s =>
    match r.Read with
    | .ok (value, r1) =>
      match replayCallback value now s with
      | .error e => .error e
      | .ok s1 => replayLoop f r1 now s1
    | .error (Err.EOF, _) => .ok s
    | .error (Err.panic, _) => .error Err.panic
    | .error (Err.fuel, _) => .error Err.fuel
    | .error (Err.NumError, r1) => replayLoop f r1 now s

/-- Replay at startup: `aofInstance.Read(callback)` over the journal file,
into the given store. -/
def replay (file : Bytes) (now : Int) (s : State) : Except Err State :=
  replayLoop (file.length + 1) (NewResp file) now s

/-! ## Notions used in the statements -/

/-- A decimal digit byte. -/
def isDigit (c : Nat) : Prop := 48 ≤ c ∧ c ≤ 57

instance : DecidablePred isDigit := fun c => inferInstanceAs (Decidable (48 ≤ c ∧ c ≤ 57))

/-- A value built only from the `Array` and `Bulk` variants, every other
field empty, nested to any depth. -/
inductive Value.IsAB : Value → Prop
  | bulk (b : Bytes) : Value.IsAB (Value.bulk b)
  | array (vs : List Value) : (∀ v ∈ vs, Value.IsAB v) → Value.IsAB (Value.array vs)

/-- A frame made of Arrays and BulkStrings as the spec describes the wire
format: a marker byte, a length line of decimal digits ended by CRLF, and
then either the declared number of payload bytes and a CRLF (BulkString) or
the declared number of frames (Array). -/
inductive Frame : Bytes → Prop
  | bulk (ds payload : Bytes) : ds ≠ [] → (∀ d ∈ ds, isDigit d) →
      parseDigits ds 0 = some payload.length →
      Frame (BULK :: (ds ++ CRLF ++ payload ++ CRLF))
  | array (ds : Bytes) (elems : List Bytes) : ds ≠ [] → (∀ d ∈ ds, isDigit d) →
      parseDigits ds 0 = some elems.length → (∀ e ∈ elems, Frame e) →
      Frame (ARRAY :: (ds ++ CRLF ++ elems.flatten))

/-- A frame whose length lines are in the decimal form the encoder writes
(`strconv.Itoa`: no sign, no leading zero). -/
inductive CanonFrame : Bytes → Prop
  | bulk (payload : Bytes) :
      CanonFrame (BULK :: (natToDec payload.length ++ CRLF ++ payload ++ CRLF))
  | array (elems : List Bytes) : (∀ e ∈ elems, CanonFrame e) →
      CanonFrame (ARRAY :: (natToDec elems.length ++ CRLF ++ elems.flatten))

/-- A frame of 4099 bytes: a BulkString of 4090 bytes `a`. -/
def bigFrame : Bytes :=
  BULK :: (natToDec (List.replicate 4090 97).length ++ CRLF ++ List.replicate 4090 97 ++ CRLF)

/-- A frame nested to depth 4: `[[[ "a" ]]]`. -/
def nestedFrame : Bytes := str "*1\r\n*1\r\n*1\r\n$1\r\na\r\n"

/-- A client request with ASCII arguments: an Array of BulkStrings. -/
def req (l : List String) : Value := Value.array (l.map (fun x => Value.bulk (str x)))

/-- The server at first start: empty store, empty journal file. -/
def Server.init : Server := ⟨State.empty, []⟩

/-- The client path over a sequence of decoded requests, each with the clock
value at which it is served (one reading per request, shared by the journal
step and the handler). -/
def runClient : List (Value × Int) → Server → Server
  | [], sv => sv
  | (value, now) :: rest, sv => runClient rest (handleRequest value now now sv).2

/-- The store after `SET k old` and then `EXPIRE k 5` served at clock 0:
`k` holds a value and the expiry instant 5. -/
def storeWithExpiry5 : State :=
  (expire [Value.bulk (str "k"), Value.bulk (str "5")] 0
    (set [Value.bulk (str "k"), Value.bulk (str "old")] State.empty).2).2

/-- The store after `SET k v`: `k` holds a value and has no expiry entry. -/
def storeWithKey : State :=
  (set [Value.bulk (str "k"), Value.bulk (str "v")] State.empty).2

/-- The store after `SET k v` and then `EXPIRE k 0` served at clock 100:
`k` has the expiry instant 100. -/
def storeExpiringAt100 : State :=
  (expire [Value.bulk (str "k"), Value.bulk (str "0")] 100 storeWithKey).2

/-- The arguments of a call `ZADD key (score member)+`: the key and then, for
every pair, the text of the score and the member. -/
def zaddArgs (key : Bytes) (pairs : List (Bytes × Bytes)) : List Value :=
  Value.bulk key :: pairs.flatMap (fun p => [Value.bulk p.1, Value.bulk p.2])

/-- The sorted set a handler works on for a key: the stored one, or the
empty set when the key has none. -/
def State.zsetOf (s : State) (key : Bytes) : SortedSet :=
  match s.ZSETs key with
  | none => SortedSet.New
  | some ss => ss

/-- The number of distinct listed members that are not in the set. -/
def newCount (listed : List Bytes) (ss : SortedSet) : Nat :=
  ((listed.filter (fun m => (ss.GetByKey m).isNone)).dedup).length

/-- The score of the last listed pair with the given member (`none` when the
member is not listed). -/
def lastScore : List (Bytes × Bytes) → Bytes → Option Int
  | [], _ => none
  | p :: rest, m =>
    match lastScore rest m with
    | some sc => some sc
    | none => if p.2 = m then parseInt p.1 else none

/-- The store after `ZADD k 1 a`: the sorted set of `k` is `{a ↦ 1}`. -/
def storeWithZset : State :=
  (zadd (zaddArgs (str "k") [(str "1", str "a")]) State.empty).2

/-- The entries whose 0-based rank `r` satisfies `lo <= r <= hi`, in rank
order. -/
def rankRange (items : List Item) (lo hi : Int) : List Item :=
  (items.enum.filter (fun p => lo ≤ (p.1 : Int) ∧ (p.1 : Int) ≤ hi)).map Prod.snd

/-- The elements of the reply of `ZRANGE` as the spec words them: negative
`start` / `end` count from the end of the set, `end` is then clamped to
`size - 1`, the result is empty when `start > end` or `start >= size`, and
is otherwise the members of the inclusive rank range, each followed by its
score as decimal text when scores are requested. -/
def zrangeSpec (items : List Item) (start stop : Int) (withscores : Bool) : List Value :=
  let n : Int := items.length
  let start1 := if start < 0 then start + n else start
  let stop1 := min (if stop < 0 then stop + n else stop) (n - 1)
  if start1 > stop1 ∨ start1 ≥ n then []
  else (rankRange items start1 stop1).flatMap (fun it =>
    if withscores then [Value.bulk it.member, Value.bulk (itoa it.score)]
    else [Value.bulk it.member])

/-- The number of distinct listed members that are in the set. -/
def presentCount (listed : List Bytes) (ss : SortedSet) : Nat :=
  ((listed.filter (fun m => (ss.GetByKey m).isSome)).dedup).length

/-- The arguments of `ZADD k 1 a 2 b`. -/
def zaddAB (k : Bytes) : List Value := zaddArgs k [(str "1", str "a"), (str "2", str "b")]

/-- The arguments of `ZADD k 3 a`. -/
def zaddA3 (k : Bytes) : List Value := zaddArgs k [(str "3", str "a")]

/-- The arguments of `ZRANGE k 0 -1 WITHSCORES`. -/
def zrangeAll (k : Bytes) : List Value :=
  [Value.bulk k, Value.bulk (str "0"), Value.bulk (str "-1"), Value.bulk (str "WITHSCORES")]

/-- The sorted set after the upserts `a ↦ 1`, `b ↦ 2` into the empty set. -/
def setAB : SortedSet := (SortedSet.New.AddOrUpdate (str "a") 1).AddOrUpdate (str "b") 2

/-- The sorted set `setAB` after the upsert `a ↦ 3`. -/
def setBA : SortedSet := setAB.AddOrUpdate (str "a") 3

/-- A read result that is not a budget failure and leaves at most `n` bytes
unread. -/
def Res.le {α : Type} (n : Nat) : Res α → Prop
  | .ok (_, r1) => r1.rest.length ≤ n
  | .error (e, r1) => e ≠ Err.fuel ∧ r1.rest.length ≤ n

/-- The journal holding the records `SET a v`, `EXPIRESAT a T` (with `T`
given as text) and `HSET h f w`, in this order. -/
def journal3 (a v ttext h f w : Bytes) : Bytes :=
  (Value.array [Value.bulk (str "SET"), Value.bulk a, Value.bulk v]).Marshal ++
  ((Value.array [Value.bulk (str "EXPIRESAT"), Value.bulk a, Value.bulk ttext]).Marshal ++
  (Value.array [Value.bulk (str "HSET"), Value.bulk h, Value.bulk f, Value.bulk w]).Marshal)

/-- The store replay builds from `journal3`: `a ↦ v`, `h ↦ {f ↦ w}`, and the
expiry instant `T` for `a`. -/
def store3 (a v : Bytes) (T : Int) (h f w : Bytes) : State :=
  { SETs := State.empty.SETs.set a v,
    HSETs := State.empty.HSETs.set h [(f, w)],
    Expiry := State.empty.Expiry.set a T,
    ZSETs := State.empty.ZSETs }

/-- The store after `ZADD k 1 a 2 b 3 c 4 d 5 e` on the empty store. -/
def storeFive : State :=
  (zadd (zaddArgs (str "k") [(str "1", str "a"), (str "2", str "b"), (str "3", str "c"),
    (str "4", str "d"), (str "5", str "e")]) State.empty).2

/-- The store after `ZADD k 1 a 2 b 3 c` on the empty store. -/
def storeThree : State :=
  (zadd (zaddArgs (str "k") [(str "1", str "a"), (str "2", str "b"), (str "3", str "c")])
    State.empty).2

/-! # Theorems -/

/-! ## Lemmas on the `strconv` helpers -/

theorem natDigits_acc : ∀ (f n : Nat) (acc : Bytes),
    natDigits f n acc = natDigits f n [] ++ acc := by
  intro f
  induction f with
  | zero => intro n acc; simp [natDigits]
  | succ f ih =>
    intro n acc
    simp only [natDigits]
    split
    · simp
    · rw [ih (n / 10) ((48 + n % 10) :: acc), ih (n / 10) [48 + n % 10]]
      simp

theorem parseDigits_append : ∀ (xs ys : Bytes) (a : Nat),
    parseDigits (xs ++ ys) a = (parseDigits xs a).bind (parseDigits ys) := by
  intro xs
  induction xs with
  | nil => intro ys a; simp [parseDigits]
  | cons x xs ih =>
    intro ys a
    simp only [List.cons_append, parseDigits]
    split
    · exact ih ys _
    · rfl

theorem parseDigits_natDigits : ∀ (f n : Nat), n < f →
    parseDigits (natDigits f n []) 0 = some n := by
  intro f
  induction f with
  | zero => intro n h; omega
  | succ f ih =>
    intro n h
    simp only [natDigits]
    split
    · rename_i h10
      have hd : 48 ≤ 48 + n ∧ 48 + n ≤ 57 := by omega
      simp only [parseDigits, if_pos hd]
      congr 1
      omega
    · rename_i h10
      have hd : 48 ≤ 48 + n % 10 ∧ 48 + n % 10 ≤ 57 := by omega
      rw [natDigits_acc, parseDigits_append, ih (n / 10) (by omega)]
      simp only [Option.bind, parseDigits, if_pos hd]
      congr 1
      omega


theorem natDigits_digits : ∀ (f n : Nat) (acc : Bytes), (∀ d ∈ acc, isDigit d) →
    ∀ d ∈ natDigits f n acc, isDigit d := by
  intro f
  induction f with
  | zero => intro n acc h; simpa [natDigits] using h
  | succ f ih =>
    intro n acc h
    simp only [natDigits]
    split
    · intro d hd
      rcases List.mem_cons.mp hd with rfl | hd
      · unfold isDigit; omega
      · exact h d hd
    · apply ih
      intro d hd
      rcases List.mem_cons.mp hd with rfl | hd
      · unfold isDigit; omega
      · exact h d hd

theorem natToDec_digits (n : Nat) : ∀ d ∈ natToDec n, isDigit d :=
  natDigits_digits (n + 1) n [] (by simp)

theorem natToDec_ne_nil (n : Nat) : natToDec n ≠ [] := by
  unfold natToDec
  simp only [natDigits]
  split
  · simp
  · rw [natDigits_acc]; simp

theorem parseDigits_natToDec (n : Nat) : parseDigits (natToDec n) 0 = some n :=
  parseDigits_natDigits (n + 1) n (by omega)

/-- On text that starts with a digit `parseInt` is `parseDigits` with the
range check. -/
theorem parseInt_of_digits (ds : Bytes) (n : Nat) (hne : ds ≠ [])
    (hd : ∀ d ∈ ds, isDigit d) (hp : parseDigits ds 0 = some n) (hn : n < 2 ^ 63) :
    parseInt ds = some (n : Int) := by
  cases ds with
  | nil => exact absurd rfl hne
  | cons c t =>
    have hc : isDigit c := hd c (by simp)
    unfold isDigit at hc
    obtain ⟨hc1, hc2⟩ := hc
    have h43 : (c == 43) = false := by simp; omega
    have h45 : (c == 45) = false := by simp; omega
    have hn1 : n < 9223372036854775808 := by norm_num at hn; exact hn
    simp only [parseInt, h43, h45, Bool.false_eq_true, or_self, if_false, hp]
    simp [hn1]

theorem parseInt_natToDec (n : Nat) (hn : n < 2 ^ 63) : parseInt (natToDec n) = some (n : Int) :=
  parseInt_of_digits _ n (natToDec_ne_nil n) (natToDec_digits n) (parseDigits_natToDec n) hn

theorem itoa_natCast (n : Nat) : itoa (n : Int) = natToDec n := by
  simp [itoa]

/-! ## Lemmas on the reader -/

theorem ReadByte_cons (b : Nat) (bs src : Bytes) :
    Reader.ReadByte ⟨b :: bs, src⟩ = .ok (b, ⟨bs, src⟩) := rfl

theorem ReadByte_nil : Reader.ReadByte ⟨[], []⟩ = .error (Err.EOF, ⟨[], []⟩) := rfl

/-- The test `len(line) >= 2 && line[len(line)-2] == '\r'` after appending a
byte looks at the last byte of the line before the append. -/
theorem lineCheck_iff (acc : Bytes) (x : Nat) :
    (2 ≤ (acc ++ [x]).length ∧ (acc ++ [x]).getD ((acc ++ [x]).length - 2) 0 = CR)
      ↔ acc.getLast? = some CR := by
  rcases List.eq_nil_or_concat acc with rfl | ⟨acc1, y, rfl⟩
  · simp
  · rw [List.concat_eq_append]
    have h1 : (acc1 ++ [y] ++ [x]).length - 2 = acc1.length := by simp
    rw [h1]
    simp [List.getD_eq_getElem?_getD, List.getElem?_append, List.getElem_append_right]

theorem readLineLoop_step (f : Nat) (b : Nat) (bs src acc : Bytes) :
    readLineLoop (f + 1) ⟨b :: bs, src⟩ acc =
      if acc.getLast? = some CR then .ok ((acc ++ [b]).take ((acc ++ [b]).length - 2), ⟨bs, src⟩)
      else readLineLoop f ⟨bs, src⟩ (acc ++ [b]) := by
  simp only [readLineLoop, ReadByte_cons, lineCheck_iff]

/-- Method `ReadLine` on buffered text: the bytes before the first carriage return
are the line, and the carriage return and the byte after it are consumed. -/
theorem readLineLoop_line : ∀ (ds : Bytes) (f : Nat) (acc : Bytes) (b : Nat) (rest src : Bytes),
    (∀ d ∈ ds, d ≠ CR) → acc.getLast? ≠ some CR → ds.length + 2 ≤ f →
    readLineLoop f ⟨ds ++ CR :: b :: rest, src⟩ acc = .ok (acc ++ ds, ⟨rest, src⟩) := by
  intro ds
  induction ds with
  | nil =>
    intro f acc b rest src _ hacc hf
    obtain ⟨f, rfl⟩ : ∃ g, f = g + 2 := ⟨f - 2, by simp at hf; omega⟩
    rw [List.nil_append, readLineLoop_step, if_neg hacc, readLineLoop_step, if_pos (by simp)]
    simp
  | cons d ds ih =>
    intro f acc b rest src hds hacc hf
    obtain ⟨f, rfl⟩ : ∃ g, f = g + 1 := ⟨f - 1, by simp at hf; omega⟩
    rw [List.cons_append, readLineLoop_step, if_neg hacc,
      ih f (acc ++ [d]) b rest src (fun x hx => hds x (List.mem_cons_of_mem _ hx))
        (by simpa using hds d (List.mem_cons_self _ _)) (by simp at hf ⊢; omega)]
    simp

theorem ReadLine_line (ds : Bytes) (b : Nat) (rest src : Bytes) (hds : ∀ d ∈ ds, d ≠ CR) :
    Reader.ReadLine ⟨ds ++ CR :: b :: rest, src⟩ = .ok (ds, ⟨rest, src⟩) := by
  unfold Reader.ReadLine
  rw [readLineLoop_line ds _ [] b rest src hds (by simp) (by simp [Reader.rest])]
  simp

theorem isDigit_ne_CR {d : Nat} (h : isDigit d) : d ≠ CR := by
  unfold isDigit at h
  unfold CR
  omega

/-- Method `ReadInteger` on a buffered canonical decimal line. -/
theorem ReadInteger_natToDec (n : Nat) (hn : n < 2 ^ 63) (rest src : Bytes) :
    Reader.ReadInteger ⟨natToDec n ++ CRLF ++ rest, src⟩ = .ok ((n : Int), ⟨rest, src⟩) := by
  unfold Reader.ReadInteger
  have h := ReadLine_line (natToDec n) LF rest src (fun d hd => isDigit_ne_CR (natToDec_digits n d hd))
  simp only [CRLF, List.append_assoc, List.cons_append, List.nil_append]
  rw [h]
  simp only [parseInt_natToDec n hn]

/-- The calls `make` and `Read` on a buffer that holds the whole payload. -/
theorem ReadMake_buf (payload rest src : Bytes) :
    Reader.ReadMake ⟨payload ++ rest, src⟩ payload.length = (payload, ⟨rest, src⟩) := by
  unfold Reader.ReadMake
  cases payload with
  | nil => simp
  | cons p ps => simp

/-- Method `ReadBulk` on a buffered canonical bulk frame. -/
theorem ReadBulk_buf (payload rest src : Bytes) (hn : payload.length ≤ 2 ^ 48) :
    Reader.ReadBulk ⟨natToDec payload.length ++ CRLF ++ payload ++ CRLF ++ rest, src⟩
      = .ok (Value.bulk payload, ⟨rest, src⟩) := by
  unfold Reader.ReadBulk
  have h := ReadInteger_natToDec payload.length (by norm_num at hn ⊢; omega)
    (payload ++ CRLF ++ rest) src
  simp only [List.append_assoc] at h ⊢
  rw [h]
  have hmake : ¬ ((payload.length : Int) < 0 ∨ (payload.length : Int) > maxAlloc) := by
    unfold maxAlloc
    norm_num at hn ⊢
    omega
  simp only [if_neg hmake]
  have h2 := ReadLine_line [] LF rest src (by simp)
  simp only [List.nil_append] at h2
  simp [ReadMake_buf, CRLF, h2]

/-! ## Decoding an encoded value -/

theorem Marshal_bulk (b : Bytes) :
    (Value.bulk b).Marshal = BULK :: (natToDec b.length ++ CRLF ++ b ++ CRLF) := by
  simp [Value.bulk, Value.Marshal, itoa_natCast]

theorem Marshal_array (vs : List Value) :
    (Value.array vs).Marshal = ARRAY :: (natToDec vs.length ++ CRLF ++ Value.marshalElems vs) := by
  simp [Value.array, Value.Marshal, itoa_natCast]

theorem marshalElems_length_le {vs : List Value} {v : Value} (hv : v ∈ vs) :
    v.Marshal.length ≤ (Value.marshalElems vs).length := by
  induction vs with
  | nil => cases hv
  | cons w ws ih =>
    simp only [Value.marshalElems, List.length_append]
    rcases List.mem_cons.mp hv with rfl | h
    · omega
    · have := ih h
      omega

theorem readElems_Marshal (rd : Reader → Res Value) (src : Bytes) :
    ∀ (vs : List Value) (acc : List Value) (rest : Bytes),
      (∀ v ∈ vs, ∀ rest, rd ⟨v.Marshal ++ rest, src⟩ = .ok (v, ⟨rest, src⟩)) →
      readElems rd vs.length ⟨Value.marshalElems vs ++ rest, src⟩ acc
        = .ok (acc ++ vs, ⟨rest, src⟩) := by
  intro vs
  induction vs with
  | nil => intro acc rest _; simp [readElems, Value.marshalElems]
  | cons v vs ih =>
    intro acc rest h
    simp only [List.length_cons, readElems, Value.marshalElems, List.append_assoc]
    rw [h v (List.mem_cons_self _ _)]
    simp only
    rw [ih (acc ++ [v]) rest (fun w hw => h w (List.mem_cons_of_mem _ hw))]
    simp

/-- Decoding the encoding of an Array / Bulk value that is wholly buffered
returns the value and leaves exactly the bytes after it. -/
theorem readValue_Marshal : ∀ v : Value, v.IsAB → ∀ (f : Nat) (rest src : Bytes),
    v.Marshal.length ≤ f → v.Marshal.length ≤ 2 ^ 48 →
    readValue f ⟨v.Marshal ++ rest, src⟩ = .ok (v, ⟨rest, src⟩) := by
  intro v hv
  induction hv with
  | bulk b =>
    intro f rest src hf hlen
    rw [Marshal_bulk] at hf hlen ⊢
    obtain ⟨g, rfl⟩ : ∃ g, f = g + 1 := ⟨f - 1, by simp at hf; omega⟩
    have hb : b.length ≤ 2 ^ 48 := by
      simp only [List.length_cons, List.length_append] at hlen
      omega
    simp only [readValue, List.cons_append, ReadByte_cons]
    rw [if_pos trivial]
    exact ReadBulk_buf b rest src hb
  | array vs _ ih =>
    intro f rest src hf hlen
    rw [Marshal_array] at hf hlen ⊢
    obtain ⟨g, rfl⟩ : ∃ g, f = g + 1 := ⟨f - 1, by simp at hf; omega⟩
    simp only [List.length_cons, List.length_append] at hf hlen
    have hel : ∀ v ∈ vs, v.Marshal.length ≤ (Value.marshalElems vs).length :=
      fun v hv => marshalElems_length_le hv
    have hne : ∀ v ∈ vs, v.IsAB → 1 ≤ v.Marshal.length := by
      intro v _ hab
      cases hab with
      | bulk b => rw [Marshal_bulk]; simp
      | array ws _ => rw [Marshal_array]; simp
    have hcount : vs.length ≤ (Value.marshalElems vs).length := by
      clear hf hlen ih hel
      rename_i hab
      induction vs with
      | nil => simp
      | cons w ws ihw =>
        simp only [Value.marshalElems, List.length_append, List.length_cons]
        have h1 := hne w (List.mem_cons_self _ _) (hab w (List.mem_cons_self _ _))
        have h2 := ihw (fun v hv => hab v (List.mem_cons_of_mem _ hv))
          (fun v hv => hne v (List.mem_cons_of_mem _ hv))
        omega
    simp only [readValue, List.cons_append, ReadByte_cons]
    rw [if_pos trivial]
    have hint := ReadInteger_natToDec vs.length (by omega) (Value.marshalElems vs ++ rest) src
    simp only [List.append_assoc] at hint ⊢
    rw [hint]
    simp only [Int.toNat_ofNat]
    rw [readElems_Marshal (readValue g) src vs [] rest
      (fun v hv rest1 => ih v hv g rest1 src (by have := hel v hv; omega)
        (by have := hel v hv; omega))]
    simp

/-! ## C1: the codec round trip -/

theorem ReadByte_fill (x : Bytes) (h : x.length ≤ defaultBufSize) :
    Reader.ReadByte ⟨[], x⟩ = Reader.ReadByte ⟨x, []⟩ := by
  unfold Reader.ReadByte
  simp only [List.take_of_length_le h, List.drop_of_length_le h]
  cases x <;> rfl

/-- A frame that fits the buffer is buffered whole by the first `ReadByte`. -/
theorem readValue_fill (f : Nat) (x : Bytes) (h : x.length ≤ defaultBufSize) :
    readValue (f + 1) ⟨[], x⟩ = readValue (f + 1) ⟨x, []⟩ := by
  simp only [readValue, ReadByte_fill x h]

theorem canonFrame_value (x : Bytes) (hx : CanonFrame x) : ∃ v : Value, v.IsAB ∧ v.Marshal = x := by
  induction hx with
  | bulk payload => exact ⟨Value.bulk payload, Value.IsAB.bulk payload, Marshal_bulk payload⟩
  | array elems _ ih =>
    have hvs : ∃ vs : List Value, (∀ v ∈ vs, v.IsAB) ∧ vs.length = elems.length ∧
        Value.marshalElems vs = elems.flatten := by
      clear * - ih
      induction elems with
      | nil => exact ⟨[], by simp, rfl, rfl⟩
      | cons e es ihe =>
        obtain ⟨v, hv, hm⟩ := ih e (List.mem_cons_self _ _)
        obtain ⟨vs, hvs, hl, hms⟩ := ihe (fun e1 he1 => ih e1 (List.mem_cons_of_mem _ he1))
        refine ⟨v :: vs, ?_, by simp [hl], by simp [Value.marshalElems, hm, hms]⟩
        intro w hw
        rcases List.mem_cons.mp hw with rfl | hw
        · exact hv
        · exact hvs w hw
    obtain ⟨vs, hvs, hl, hms⟩ := hvs
    exact ⟨Value.array vs, Value.IsAB.array vs hvs, by rw [Marshal_array, hl, hms]⟩

/-- C1 (as stated, refuted): `$03\r\nabc\r\n` is a frame whose length line is
the digits `03`; `Read` decodes it to the BulkString `abc`, and `Marshal`
writes that back as `$3\r\nabc\r\n`, which is not the input. -/
theorem C1_counterexample :
    Frame (str "$03\r\nabc\r\n") ∧
    (NewResp (str "$03\r\nabc\r\n")).Read = .ok (Value.bulk (str "abc"), ⟨[], []⟩) ∧
    (Value.bulk (str "abc")).Marshal = str "$3\r\nabc\r\n" ∧
    (Value.bulk (str "abc")).Marshal ≠ str "$03\r\nabc\r\n" :=
  ⟨Frame.bulk (str "03") (str "abc") (by decide) (by decide) (by decide),
    by decide, by decide, by decide⟩

/-- C1 (amended): for every frame made of Arrays and BulkStrings, nested to
any depth, whose length lines are canonical decimal numbers and which fits
the read buffer (at most 4096 bytes), `Read` succeeds, consumes the whole
frame, and `Marshal` of the decoded value reproduces the frame byte for byte. -/
theorem C1_roundtrip_canonical (x : Bytes) (hx : CanonFrame x)
    (hlen : x.length ≤ defaultBufSize) :
    ∃ v : Value, (NewResp x).Read = .ok (v, ⟨[], []⟩) ∧ v.Marshal = x := by
  obtain ⟨v, hv, hm⟩ := canonFrame_value x hx
  refine ⟨v, ?_, hm⟩
  unfold Reader.Read NewResp
  rw [readValue_fill _ x hlen]
  have h := readValue_Marshal v hv (x.length + 1) [] [] (by rw [hm]; omega)
    (by rw [hm]; unfold defaultBufSize at hlen; omega)
  rw [hm, List.append_nil] at h
  simpa [Reader.rest] using h

theorem nestedFrame_canon : CanonFrame nestedFrame := by
  have h1 : CanonFrame (str "$1\r\na\r\n") := CanonFrame.bulk (str "a")
  have h2 : CanonFrame (str "*1\r\n$1\r\na\r\n") :=
    CanonFrame.array [str "$1\r\na\r\n"] (by simpa using h1)
  have h3 : CanonFrame (str "*1\r\n*1\r\n$1\r\na\r\n") :=
    CanonFrame.array [str "*1\r\n$1\r\na\r\n"] (by simpa using h2)
  exact CanonFrame.array [str "*1\r\n*1\r\n$1\r\na\r\n"] (by simpa using h3)

/-- C1 (amended), at a frame nested to depth 4. -/
theorem C1_roundtrip_canonical_witness :
    CanonFrame nestedFrame ∧ nestedFrame.length ≤ defaultBufSize ∧
    ∃ v : Value, (NewResp nestedFrame).Read = .ok (v, ⟨[], []⟩) ∧ v.Marshal = nestedFrame :=
  ⟨nestedFrame_canon, by decide,
    C1_roundtrip_canonical nestedFrame nestedFrame_canon (by decide)⟩

/-- A canonical frame longer than the read buffer is not reproduced: the
payload of `bigFrame` straddles the end of the buffer, `reader.Read` returns
the 4089 buffered bytes only, and the decoded BulkString ends in a zero byte. -/
theorem bigFrame_not_reproduced :
    CanonFrame bigFrame ∧
    (NewResp bigFrame).Read
      = .ok (Value.bulk (List.replicate 4089 97 ++ [0]), ⟨[], []⟩) ∧
    (Value.bulk (List.replicate 4089 97 ++ [0])).Marshal ≠ bigFrame :=
  ⟨CanonFrame.bulk (List.replicate 4090 97), by decide!, by decide!⟩

/-! ## C2, C4: `EXPIRE` and the journal -/

/-- C2 (failing input): the single request `EXPIRE k 10`, served at clock 100
on a fresh server. The live store keeps no expiry entry for `k` (the reply is
`0`), yet the journal holds the record `EXPIRESAT k 110`, and replaying the
journal into an empty store yields an Expiry Table with `k ↦ 110`. -/
theorem C2_replay_diverges :
    (runClient [(req ["EXPIRE", "k", "10"], 100)] Server.init).state.Expiry (str "k") = none ∧
    (runClient [(req ["EXPIRE", "k", "10"], 100)] Server.init).file
      = (req ["EXPIRESAT", "k", "110"]).Marshal ∧
    (replay (runClient [(req ["EXPIRE", "k", "10"], 100)] Server.init).file 0 State.empty).map
      (fun s => s.Expiry (str "k")) = .ok (some 110) := by
  refine ⟨by decide!, by decide!, by decide!⟩

/-- C4 (failing input): `EXPIRE k 10` at clock 100 on a fresh server, where
`k` is in neither store. The reply is `0` and no collection has an entry for
`k`, but the journal file is no longer empty: it holds `EXPIRESAT k 110`. -/
theorem C4_journal_grows :
    (handleRequest (req ["EXPIRE", "k", "10"]) 100 100 Server.init).1
      = some (Value.string (str "0")) ∧
    (handleRequest (req ["EXPIRE", "k", "10"]) 100 100 Server.init).2.file
      = str "*3\r\n$9\r\nEXPIRESAT\r\n$1\r\nk\r\n$3\r\n110\r\n" ∧
    (handleRequest (req ["EXPIRE", "k", "10"]) 100 100 Server.init).2.file ≠ Server.init.file := by
  refine ⟨by decide!, by decide!, by decide!⟩

/-! ## C3, C5, C6, C7: strings and expiry -/

theorem wrap64_of_range (x : Int) (hlo : -2 ^ 63 ≤ x) (hhi : x < 2 ^ 63) : wrap64 x = x := by
  unfold wrap64
  norm_num at hlo hhi ⊢
  omega

/-- C3 (as stated, refuted): in the store reached by `SET k old`, `EXPIRE k 5`
at clock 0, the call `SET k v` returns `OK`, and a `GET k` at clock 10, with
no `EXPIRE` in between, returns Null: `SET` does not clear the old expiry
entry and `GET` removes the key. -/
theorem C3_counterexample :
    (set [Value.bulk (str "k"), Value.bulk (str "v")] storeWithExpiry5).1
      = Value.string (str "OK") ∧
    (get [Value.bulk (str "k")] 10
      (set [Value.bulk (str "k"), Value.bulk (str "v")] storeWithExpiry5).2).1 = Value.null := by
  refine ⟨by decide, by decide⟩

/-- C3 (amended): for every store, key `k` and value `v` such that `k` has no
expiry entry that has elapsed when `GET` is served (no entry, or an instant
not before the clock), `SET k v` returns `OK` and a following `GET k`
returns the BulkString `v`. -/
theorem C3_set_then_get (s : State) (k v : Bytes) (now : Int)
    (hexp : ∀ exp, s.Expiry k = some exp → now ≤ exp) :
    (set [Value.bulk k, Value.bulk v] s).1 = Value.string (str "OK") ∧
    (get [Value.bulk k] now (set [Value.bulk k, Value.bulk v] s).2).1 = Value.bulk v := by
  have hne : isExpired k now { s with SETs := s.SETs.set k v } = false := by
    unfold isExpired
    cases h : s.Expiry k with
    | none => simp [h]
    | some exp =>
      have := hexp exp h
      simp only [h, decide_eq_false_iff_not]
      omega
  constructor
  · simp [set]
  · simp [set, get, argBulk, Value.bulk, Value.Bulk, cleanupIfExpired, hne, GoMap.set]

/-- C3 (amended), at the store after `SET k v`, for the new value `new` and clock 10. -/
theorem C3_set_then_get_witness :
    (∀ exp, storeWithKey.Expiry (str "k") = some exp → (10 : Int) ≤ exp) ∧
    (set [Value.bulk (str "k"), Value.bulk (str "new")] storeWithKey).1
      = Value.string (str "OK") ∧
    (get [Value.bulk (str "k")] 10
      (set [Value.bulk (str "k"), Value.bulk (str "new")] storeWithKey).2).1
      = Value.bulk (str "new") :=
  ⟨(fun exp h => by
      have h0 : storeWithKey.Expiry (str "k") = none := by decide
      rw [h0] at h; cases h),
    C3_set_then_get storeWithKey (str "k") (str "new") 10 (fun exp h => by
      have h0 : storeWithKey.Expiry (str "k") = none := by decide
      rw [h0] at h; cases h)⟩

/-- C5 (as stated, refuted): on the store after `SET k v`, the call
`EXPIRE k 9223372036854775807` at clock 1700000000 replies `1`, but the
64-bit sum wraps: the expiry entry is `-9223372035154775809`, not
`now + s`. -/
theorem C5_counterexample :
    (expire [Value.bulk (str "k"), Value.bulk (str "9223372036854775807")] 1700000000
      storeWithKey).1 = Value.string (str "1") ∧
    (expire [Value.bulk (str "k"), Value.bulk (str "9223372036854775807")] 1700000000
      storeWithKey).2.Expiry (str "k") = some (-9223372035154775809) ∧
    (expire [Value.bulk (str "k"), Value.bulk (str "9223372036854775807")] 1700000000
      storeWithKey).2.Expiry (str "k") ≠ some (1700000000 + 9223372036854775807) := by
  refine ⟨by decide, by decide, by decide⟩

/-- C5 (amended): for every store, every key present in the String Store or
the Hash Store, every seconds argument that is the text of an integer `s`
and every clock value `now` with `now + s` in the signed 64-bit range,
`EXPIRE key s` replies `1` and sets the expiry entry of the key to
`now + s`, overwriting any prior entry and changing nothing else; and when
`s` is 100, a `TTL key` served at `now` returns `100` and one served at
`now + 1` returns `99`. -/
theorem C5_expire_existing (s : State) (key stext : Bytes) (sec now : Int)
    (hkey : (s.SETs key).isSome ∨ (s.HSETs key).isSome)
    (hsec : parseInt stext = some sec)
    (hlo : -2 ^ 63 ≤ now + sec) (hhi : now + sec < 2 ^ 63) :
    expire [Value.bulk key, Value.bulk stext] now s
      = (Value.string (str "1"), { s with Expiry := s.Expiry.set key (now + sec) }) ∧
    (sec = 100 →
      (ttl [Value.bulk key] now (expire [Value.bulk key, Value.bulk stext] now s).2).1
        = Value.string (str "100") ∧
      (ttl [Value.bulk key] (now + 1) (expire [Value.bulk key, Value.bulk stext] now s).2).1
        = Value.string (str "99")) := by
  have hcond : ¬ ((s.SETs key).isNone ∧ (s.HSETs key).isNone) := by
    rcases hkey with h | h
    · intro hn; cases hs : s.SETs key <;> simp [hs] at h hn
    · intro hn; cases hs : s.HSETs key <;> simp [hs] at h hn
  have hexp : expire [Value.bulk key, Value.bulk stext] now s
      = (Value.string (str "1"), { s with Expiry := s.Expiry.set key (now + sec) }) := by
    simp only [expire, argBulk, Value.bulk, Value.Bulk, List.getD_cons_zero, List.getD_cons_succ,
      List.length_cons, List.length_nil, hsec, if_neg hcond, wrap64_of_range _ hlo hhi]
    simp
  refine ⟨hexp, ?_⟩
  intro h100
  subst h100
  rw [hexp]
  have h1 : wrap64 100 = 100 := by decide
  have h2 : wrap64 99 = 99 := by decide
  have h3 : itoa 100 = str "100" := by decide
  have h4 : itoa 99 = str "99" := by decide
  have e1 : now + 100 - now = 100 := by omega
  have e2 : now + 100 - (now + 1) = 99 := by omega
  constructor
  · simp [ttl, argBulk, Value.bulk, Value.Bulk, GoMap.set, e1, h1, h3]
  · simp [ttl, argBulk, Value.bulk, Value.Bulk, GoMap.set, e2, h2, h4]

/-- C5 (amended), at the store after `SET k v`, `EXPIRE k 100` at clock 1000. -/
theorem C5_expire_existing_witness :
    ((storeWithKey.SETs (str "k")).isSome ∨ (storeWithKey.HSETs (str "k")).isSome) ∧
    parseInt (str "100") = some 100 ∧
    (expire [Value.bulk (str "k"), Value.bulk (str "100")] 1000 storeWithKey
      = (Value.string (str "1"),
          { storeWithKey with Expiry := storeWithKey.Expiry.set (str "k") (1000 + 100) }) ∧
    ((100 : Int) = 100 →
      (ttl [Value.bulk (str "k")] 1000
        (expire [Value.bulk (str "k"), Value.bulk (str "100")] 1000 storeWithKey).2).1
        = Value.string (str "100") ∧
      (ttl [Value.bulk (str "k")] (1000 + 1)
        (expire [Value.bulk (str "k"), Value.bulk (str "100")] 1000 storeWithKey).2).1
        = Value.string (str "99"))) :=
  ⟨by decide, by decide,
    C5_expire_existing storeWithKey (str "k") (str "100") 100 1000 (by decide) (by decide)
      (by decide) (by decide)⟩

/-- C6 (as stated, refuted): with the expiry instant of `k` equal to the
clock (both 100), so that expiry <= now, `TTL k` returns `0`, not `-2`. -/
theorem C6_counterexample :
    storeExpiringAt100.Expiry (str "k") = some 100 ∧
    (ttl [Value.bulk (str "k")] 100 storeExpiringAt100).1 = Value.string (str "0") ∧
    (ttl [Value.bulk (str "k")] 100 storeExpiringAt100).1 ≠ Value.string (str "-2") := by
  refine ⟨by decide, by decide, by decide⟩

/-- C6 (amended): for every store, key and clock value `now` (with
`expiry - now` in the signed 64-bit range when the key has an expiry entry),
`TTL key` returns `-1` when the key has no expiry entry, `-2` when its
expiry instant is strictly before `now`, and otherwise the decimal text of
`expiry - now` (`0` when they are equal); in every case the four
collections are unchanged. -/
theorem C6_ttl (s : State) (key : Bytes) (now : Int)
    (hrange : ∀ exp, s.Expiry key = some exp → -2 ^ 63 ≤ exp - now ∧ exp - now < 2 ^ 63) :
    ttl [Value.bulk key] now s =
      ((match s.Expiry key with
        | none => Value.string (str "-1")
        | some exp =>
          if exp < now then Value.string (str "-2") else Value.string (itoa (exp - now))), s) := by
  cases h : s.Expiry key with
  | none => simp [ttl, argBulk, Value.bulk, Value.Bulk, h]
  | some exp =>
    obtain ⟨hlo, hhi⟩ := hrange exp h
    simp only [ttl, argBulk, Value.bulk, Value.Bulk, List.getD_cons_zero, List.length_cons,
      List.length_nil, h, wrap64_of_range _ hlo hhi]
    by_cases hlt : exp < now
    · have : exp - now < 0 := by omega
      simp [hlt, this]
    · have : ¬ exp - now < 0 := by omega
      simp [hlt, this]

/-- C6 (amended), at the store where `k` expires at 100, clock 100. -/
theorem C6_ttl_witness :
    (∀ exp, storeExpiringAt100.Expiry (str "k") = some exp →
      -2 ^ 63 ≤ exp - 100 ∧ exp - 100 < 2 ^ 63) ∧
    ttl [Value.bulk (str "k")] 100 storeExpiringAt100 =
      ((match storeExpiringAt100.Expiry (str "k") with
        | none => Value.string (str "-1")
        | some exp =>
          if exp < 100 then Value.string (str "-2") else Value.string (itoa (exp - 100))),
        storeExpiringAt100) :=
  ⟨(fun exp h => by
      have h0 : storeExpiringAt100.Expiry (str "k") = some 100 := by decide
      rw [h0] at h; cases h; decide),
    C6_ttl storeExpiringAt100 (str "k") 100 (fun exp h => by
      have h0 : storeExpiringAt100.Expiry (str "k") = some 100 := by decide
      rw [h0] at h; cases h; decide)⟩

/-- C7: for every store in which key `k` holds a String Store value and an
expiry entry whose instant is before the clock `now`, `GET k` returns Null
and removes the value and the expiry entry of `k`, so that a following
`TTL k` (at any clock) returns `-1`. -/
theorem C7_lazy_expiry (s : State) (k v : Bytes) (exp now now2 : Int)
    (hv : s.SETs k = some v) (he : s.Expiry k = some exp) (hlt : exp < now) :
    (get [Value.bulk k] now s).1 = Value.null ∧
    (get [Value.bulk k] now s).2.SETs k = none ∧
    (get [Value.bulk k] now s).2.Expiry k = none ∧
    (ttl [Value.bulk k] now2 (get [Value.bulk k] now s).2).1 = Value.string (str "-1") := by
  have hx : isExpired k now s = true := by
    simp only [isExpired, he, decide_eq_true_eq]
    omega
  have hg : get [Value.bulk k] now s
      = (Value.null, { s with SETs := s.SETs.delete k, HSETs := s.HSETs.delete k,
                              Expiry := s.Expiry.delete k }) := by
    simp [get, argBulk, Value.bulk, Value.Bulk, cleanupIfExpired, hx, GoMap.delete]
  rw [hg]
  refine ⟨rfl, by simp [GoMap.delete], by simp [GoMap.delete], ?_⟩
  simp [ttl, argBulk, Value.bulk, Value.Bulk, GoMap.delete]

/-- C7, at the store where `k` holds `old` and expires at 5, clock 10. -/
theorem C7_lazy_expiry_witness :
    storeWithExpiry5.SETs (str "k") = some (str "old") ∧
    storeWithExpiry5.Expiry (str "k") = some 5 ∧ (5 : Int) < 10 ∧
    (get [Value.bulk (str "k")] 10 storeWithExpiry5).1 = Value.null ∧
    (get [Value.bulk (str "k")] 10 storeWithExpiry5).2.SETs (str "k") = none ∧
    (get [Value.bulk (str "k")] 10 storeWithExpiry5).2.Expiry (str "k") = none ∧
    (ttl [Value.bulk (str "k")] 11 (get [Value.bulk (str "k")] 10 storeWithExpiry5).2).1
      = Value.string (str "-1") :=
  ⟨by decide, by decide, by decide,
    C7_lazy_expiry storeWithExpiry5 (str "k") (str "old") 5 10 11 (by decide) (by decide)
      (by decide)⟩

/-- The subtraction in `ttl` is a 64-bit one: with the expiry instant
`-9223372036854775808` (a journal record `EXPIRESAT k -9223372036854775808`
sets it) and clock 1, the difference wraps and `TTL k` returns
`9223372036854775807` although the instant is long past. -/
theorem ttl_wraps :
    (ttl [Value.bulk (str "k")] 1
      { State.empty with Expiry := State.empty.Expiry.set (str "k") (-9223372036854775808) }).1
      = Value.string (str "9223372036854775807") := by
  decide

/-! ## Lemmas on the sorted set -/

theorem GetByKey_eq_some_iff (ss : SortedSet) (m : Bytes) (it : Item) :
    ss.GetByKey m = some it ↔ it ∈ ss.items ∧ it.member = m := by
  unfold SortedSet.GetByKey
  have hnd := ss.nodup
  generalize ss.items = l at hnd
  induction l with
  | nil => simp
  | cons a t ih =>
    simp only [List.map_cons, List.nodup_cons] at hnd
    obtain ⟨ha, ht⟩ := hnd
    by_cases h : a.member = m
    · simp only [List.find?_cons, h, decide_True, Option.some.injEq, List.mem_cons]
      constructor
      · rintro rfl; exact ⟨Or.inl rfl, h⟩
      · rintro ⟨h1 | h1, h2⟩
        · exact h1.symm
        · exfalso
          apply ha
          rw [h, ← h2]
          exact List.mem_map_of_mem _ h1
    · simp only [List.find?_cons, h, decide_False, List.mem_cons]
      have hi := ih ht
      constructor
      · intro hf; exact ⟨Or.inr (hi.mp hf).1, (hi.mp hf).2⟩
      · rintro ⟨h1 | h1, h2⟩
        · exfalso; rw [h1] at h2; exact h h2
        · exact hi.mpr ⟨h1, h2⟩

theorem GetByKey_isNone_iff (ss : SortedSet) (m : Bytes) :
    (ss.GetByKey m).isNone = true ↔ m ∉ ss.items.map Item.member := by
  unfold SortedSet.GetByKey
  simp only [Option.isNone_iff_eq_none, List.find?_eq_none, decide_eq_true_eq, List.mem_map,
    not_exists, not_and]

theorem mem_AddOrUpdate (ss : SortedSet) (m : Bytes) (sc : Int) (it : Item) :
    it ∈ (ss.AddOrUpdate m sc).items ↔ it = ⟨m, sc⟩ ∨ (it ∈ ss.items ∧ it.member ≠ m) := by
  simp only [SortedSet.AddOrUpdate, List.mem_orderedInsert, mem_dropMember]

theorem GetByKey_AddOrUpdate (ss : SortedSet) (m : Bytes) (sc : Int) (x : Bytes) :
    (ss.AddOrUpdate m sc).GetByKey x = if x = m then some ⟨m, sc⟩ else ss.GetByKey x := by
  split
  · rename_i h
    rw [GetByKey_eq_some_iff, mem_AddOrUpdate]
    exact ⟨Or.inl rfl, h.symm⟩
  · rename_i h
    cases hg : ss.GetByKey x with
    | some it =>
      rw [GetByKey_eq_some_iff] at hg ⊢
      rw [mem_AddOrUpdate]
      exact ⟨Or.inr ⟨hg.1, by rw [hg.2]; exact h⟩, hg.2⟩
    | none =>
      cases hg2 : (ss.AddOrUpdate m sc).GetByKey x with
      | none => rfl
      | some it =>
        exfalso
        rw [GetByKey_eq_some_iff, mem_AddOrUpdate] at hg2
        rcases hg2 with ⟨h1 | ⟨h1, _⟩, h2⟩
        · rw [h1] at h2; exact h h2.symm
        · have := (GetByKey_eq_some_iff ss x it).mpr ⟨h1, h2⟩
          rw [hg] at this; cases this

theorem dropMember_length_of_mem (m : Bytes) (l : List Item) (hnd : (l.map Item.member).Nodup)
    (hm : m ∈ l.map Item.member) : (dropMember m l).length + 1 = l.length := by
  induction l with
  | nil => simp at hm
  | cons a t ih =>
    simp only [List.map_cons, List.nodup_cons] at hnd
    obtain ⟨ha, ht⟩ := hnd
    by_cases h : a.member = m
    · have hnot : m ∉ t.map Item.member := by rw [← h]; exact ha
      have hall : dropMember m t = t := by
        unfold dropMember
        rw [List.filter_eq_self]
        intro x hx
        simp only [ne_eq, decide_not, Bool.not_eq_true', decide_eq_false_iff_not]
        intro hxm
        exact hnot (by rw [← hxm]; exact List.mem_map_of_mem _ hx)
      have : dropMember m (a :: t) = dropMember m t := by
        unfold dropMember
        simp [h]
      rw [this, hall]
      simp
    · have hmt : m ∈ t.map Item.member := by
        simp only [List.map_cons, List.mem_cons] at hm
        rcases hm with hm | hm
        · exact absurd hm.symm h
        · exact hm
      have : dropMember m (a :: t) = a :: dropMember m t := by
        unfold dropMember
        simp [h]
      rw [this]
      simp only [List.length_cons]
      have := ih ht hmt
      omega

theorem dropMember_of_not_mem (m : Bytes) (l : List Item) (hm : m ∉ l.map Item.member) :
    dropMember m l = l := by
  unfold dropMember
  rw [List.filter_eq_self]
  intro x hx
  simp only [ne_eq, decide_not, Bool.not_eq_true', decide_eq_false_iff_not]
  intro hxm
  exact hm (by rw [← hxm]; exact List.mem_map_of_mem _ hx)

theorem AddOrUpdate_length (ss : SortedSet) (m : Bytes) (sc : Int) :
    (ss.AddOrUpdate m sc).items.length
      = ss.items.length + (if (ss.GetByKey m).isNone then 1 else 0) := by
  simp only [SortedSet.AddOrUpdate, List.orderedInsert_length]
  by_cases h : m ∈ ss.items.map Item.member
  · have h1 := dropMember_length_of_mem m ss.items ss.nodup h
    have h2 : ¬ (ss.GetByKey m).isNone = true := by rw [GetByKey_isNone_iff]; exact not_not.mpr h
    rw [if_neg h2]
    omega
  · have h2 : (ss.GetByKey m).isNone = true := by rw [GetByKey_isNone_iff]; exact h
    rw [if_pos h2, dropMember_of_not_mem m ss.items h]

/-! ## C8: the reply of `ZADD` -/

theorem newCount_eq_card (listed : List Bytes) (ss : SortedSet) :
    newCount listed ss
      = (listed.toFinset.filter (fun m => m ∉ (ss.items.map Item.member).toFinset)).card := by
  unfold newCount
  rw [← List.card_toFinset, List.toFinset_filter]
  congr 1
  apply Finset.filter_congr
  intro x _
  simp only [GetByKey_isNone_iff, List.mem_toFinset]

theorem members_AddOrUpdate (ss : SortedSet) (m : Bytes) (sc : Int) :
    ((ss.AddOrUpdate m sc).items.map Item.member).toFinset
      = insert m (ss.items.map Item.member).toFinset := by
  ext x
  simp only [List.mem_toFinset, List.mem_map, Finset.mem_insert, mem_AddOrUpdate]
  constructor
  · rintro ⟨it, h | ⟨h1, _⟩, rfl⟩
    · left; rw [h]
    · right; exact ⟨it, h1, rfl⟩
  · rintro (rfl | ⟨it, h1, rfl⟩)
    · exact ⟨⟨x, sc⟩, Or.inl rfl, rfl⟩
    · by_cases hm : it.member = m
      · exact ⟨⟨m, sc⟩, Or.inl rfl, hm.symm⟩
      · exact ⟨it, Or.inr ⟨h1, hm⟩, rfl⟩

theorem newCount_cons (m : Bytes) (listed : List Bytes) (ss : SortedSet) (sc : Int) :
    newCount (m :: listed) ss
      = (if (ss.GetByKey m).isNone then 1 else 0) + newCount listed (ss.AddOrUpdate m sc) := by
  rw [newCount_eq_card, newCount_eq_card, members_AddOrUpdate]
  set S := (ss.items.map Item.member).toFinset with hS
  set L := listed.toFinset with hL
  have hiff : (ss.GetByKey m).isNone = true ↔ m ∉ S := by
    rw [GetByKey_isNone_iff, hS, List.mem_toFinset]
  rw [List.toFinset_cons]
  by_cases hm : m ∈ S
  · rw [if_neg (fun h => (hiff.mp h) hm), Finset.insert_eq_of_mem hm, Finset.filter_insert,
      if_neg (not_not.mpr hm)]
    simp
  · rw [if_pos (hiff.mpr hm), Finset.filter_insert, if_pos hm]
    have hsub : L.filter (fun x => x ∉ insert m S)
        = (L.filter (fun x => x ∉ S)).erase m := by
      ext x
      simp only [Finset.mem_filter, Finset.mem_insert, not_or, Finset.mem_erase]
      tauto
    rw [hsub]
    have h1 := Finset.card_insert_of_not_mem
      (Finset.not_mem_erase m (L.filter (fun x => x ∉ S)))
    have h2 : insert m ((L.filter (fun x => x ∉ S)).erase m)
        = insert m (L.filter (fun x => x ∉ S)) := by
      ext x
      simp only [Finset.mem_insert, Finset.mem_erase]
      tauto
    rw [h2] at h1
    rw [h1]
    omega

theorem Bulk_bulk (b : Bytes) : (Value.bulk b).Bulk = b := rfl

/-- The loop of `zadd` when every score parses: the final count, the size of
the set and the entry of every member afterwards. -/
theorem zaddLoop_spec : ∀ (pairs : List (Bytes × Bytes)) (ss : SortedSet) (c : Int),
    (∀ p ∈ pairs, (parseInt p.1).isSome) →
    ∃ ss1 : SortedSet,
      zaddLoop (pairs.flatMap (fun p => [Value.bulk p.1, Value.bulk p.2])) ss c
        = (some (c + (newCount (pairs.map Prod.snd) ss : Int)), ss1) ∧
      ss1.items.length = ss.items.length + newCount (pairs.map Prod.snd) ss ∧
      ∀ m, ss1.GetByKey m =
        match lastScore pairs m with
        | some sc => some ⟨m, sc⟩
        | none => ss.GetByKey m := by
  intro pairs
  induction pairs with
  | nil =>
    intro ss c _
    exact ⟨ss, by simp [zaddLoop, newCount], by simp [newCount], fun m => by simp [lastScore]⟩
  | cons p rest ih =>
    intro ss c hp
    obtain ⟨sc, hsc⟩ := Option.isSome_iff_exists.mp (hp p (List.mem_cons_self _ _))
    obtain ⟨ss1, h1, h2, h3⟩ := ih (ss.AddOrUpdate p.2 sc)
      (if (ss.GetByKey p.2).isNone then c + 1 else c)
      (fun q hq => hp q (List.mem_cons_of_mem _ hq))
    refine ⟨ss1, ?_, ?_, ?_⟩
    · rw [List.flatMap_cons]
      change zaddLoop (Value.bulk p.1 :: Value.bulk p.2 ::
        rest.flatMap (fun p => [Value.bulk p.1, Value.bulk p.2])) ss c = _
      simp only [zaddLoop, Bulk_bulk, hsc]
      rw [h1, List.map_cons, newCount_cons p.2 _ ss sc]
      have harith : (if (ss.GetByKey p.2).isNone = true then c + 1 else c)
            + (newCount (List.map Prod.snd rest) (ss.AddOrUpdate p.2 sc) : Int)
          = c + (((if (ss.GetByKey p.2).isNone = true then 1 else 0)
              + newCount (List.map Prod.snd rest) (ss.AddOrUpdate p.2 sc) : Nat) : Int) := by
        split <;> push_cast <;> omega
      rw [harith]
    · rw [h2, AddOrUpdate_length, List.map_cons, newCount_cons p.2 _ ss sc]
      omega
    · intro m
      rw [h3 m]
      simp only [lastScore]
      cases hl : lastScore rest m with
      | some sc1 => rfl
      | none =>
        simp only [GetByKey_AddOrUpdate]
        by_cases hm : m = p.2
        · simp [hm, hsc]
        · have hm2 : ¬ p.2 = m := fun h => hm h.symm
          simp [hm, hm2]

/-- C8: for every store and every call `ZADD key (score member)+` with at
least one pair and all scores integer, the reply is the decimal count of the
distinct listed members that were not in the set before the call; the set
stored afterwards has exactly that many entries more, has no two entries
with the same member, and holds for every listed member the score of its
last pair and for every other member its former entry. -/
theorem C8_zadd_count (s : State) (key : Bytes) (pairs : List (Bytes × Bytes))
    (hne : pairs ≠ []) (hsc : ∀ p ∈ pairs, (parseInt p.1).isSome) :
    ∃ ss1 : SortedSet,
      zadd (zaddArgs key pairs) s
        = (Value.string (itoa (newCount (pairs.map Prod.snd) (s.zsetOf key) : Int)),
            { s with ZSETs := s.ZSETs.set key ss1 }) ∧
      ss1.items.length = (s.zsetOf key).items.length + newCount (pairs.map Prod.snd) (s.zsetOf key) ∧
      (ss1.items.map Item.member).Nodup ∧
      ∀ m, ss1.GetByKey m =
        match lastScore pairs m with
        | some sc => some ⟨m, sc⟩
        | none => (s.zsetOf key).GetByKey m := by
  obtain ⟨ss1, h1, h2, h3⟩ := zaddLoop_spec pairs (s.zsetOf key) 0 hsc
  refine ⟨ss1, ?_, h2, ss1.nodup, h3⟩
  have hlen : (zaddArgs key pairs).length = 1 + 2 * pairs.length := by
    clear * -
    unfold zaddArgs
    induction pairs with
    | nil => rfl
    | cons p ps ih =>
      simp only [List.length_cons, List.flatMap_cons, List.length_append, List.length_nil] at ih ⊢
      omega
  have hpos : 0 < pairs.length := List.length_pos.mpr hne
  have harity : ¬ ((zaddArgs key pairs).length < 3 ∨ (zaddArgs key pairs).length % 2 = 0) := by
    rw [hlen]; omega
  have hdrop : (zaddArgs key pairs).drop 1
      = pairs.flatMap (fun p => [Value.bulk p.1, Value.bulk p.2]) := by
    simp [zaddArgs]
  have hkey : argBulk (zaddArgs key pairs) 0 = key := by
    simp [argBulk, zaddArgs, Value.bulk, Value.Bulk]
  simp only [zadd, if_neg harity, hdrop, hkey]
  have hz : (match s.ZSETs key with
      | none => SortedSet.New
      | some ss => ss) = s.zsetOf key := rfl
  rw [hz, h1]
  simp

/-- C8, at the set `{a ↦ 1}` under key `k` and the call
`ZADD k 3 a 2 b 5 b`: only `b` is new, the reply is `1`. -/
theorem C8_zadd_count_witness :
    [(str "3", str "a"), (str "2", str "b"), (str "5", str "b")] ≠ [] ∧
    (∀ p ∈ [(str "3", str "a"), (str "2", str "b"), (str "5", str "b")],
      (parseInt p.1).isSome) ∧
    (zadd (zaddArgs (str "k") [(str "3", str "a"), (str "2", str "b"), (str "5", str "b")])
      storeWithZset).1 = Value.string (str "1") ∧
    ∃ ss1 : SortedSet,
      zadd (zaddArgs (str "k") [(str "3", str "a"), (str "2", str "b"), (str "5", str "b")])
          storeWithZset
        = (Value.string (itoa (newCount
              ([(str "3", str "a"), (str "2", str "b"), (str "5", str "b")].map Prod.snd)
              (storeWithZset.zsetOf (str "k")) : Int)),
            { storeWithZset with ZSETs := storeWithZset.ZSETs.set (str "k") ss1 }) ∧
      ss1.items.length = (storeWithZset.zsetOf (str "k")).items.length
        + newCount ([(str "3", str "a"), (str "2", str "b"), (str "5", str "b")].map Prod.snd)
            (storeWithZset.zsetOf (str "k")) ∧
      (ss1.items.map Item.member).Nodup ∧
      ∀ m, ss1.GetByKey m =
        match lastScore [(str "3", str "a"), (str "2", str "b"), (str "5", str "b")] m with
        | some sc => some ⟨m, sc⟩
        | none => (storeWithZset.zsetOf (str "k")).GetByKey m :=
  ⟨by decide, by decide, by decide,
    C8_zadd_count storeWithZset (str "k")
      [(str "3", str "a"), (str "2", str "b"), (str "5", str "b")] (by decide) (by decide)⟩

/-! ## C9: the rank range of `ZRANGE` -/

/-- Inside the set (first rank at least 1, not above the last rank) the rank
range of the library is the plain inclusive range. -/
theorem GetByRankRange_eq (ss : SortedSet) (lo hi : Int) (hlo : 0 ≤ lo) (hle : lo ≤ hi) :
    ss.GetByRankRange (lo + 1) (hi + 1) = rankRange ss.items lo hi := by
  unfold SortedSet.GetByRankRange rankRange
  have h1 : ¬ lo + 1 < 0 := by omega
  have h2 : ¬ hi + 1 < 0 := by omega
  have h3 : ¬ lo + 1 ≤ 0 := by omega
  have h4 : ¬ hi + 1 ≤ 0 := by omega
  have h5 : ¬ lo + 1 > hi + 1 := by omega
  simp only [h1, h2, h3, h4, h5, if_false]
  congr 1
  apply List.filter_congr
  intro p _
  simp

theorem ite_array (c : Prop) [Decidable c] (a b : List Value) (s : State) :
    (if c then (Value.array a, s) else (Value.array b, s))
      = (Value.array (if c then a else b), s) := by
  split <;> rfl

/-- The part of C9 that holds: when `start` is not below `-size` (so that the
effective start is not negative), the reply of `zrange` is the one the spec
words: the members of the inclusive rank range in rank order, each followed
by its score when a 4th argument is present, and the store is unchanged. -/
theorem zrange_eq_spec (s : State) (key stext etext : Bytes) (start stop : Int)
    (extra : List Value) (hs : parseInt stext = some start) (he : parseInt etext = some stop)
    (hextra : extra.length ≤ 1)
    (hin : ∀ ss, s.ZSETs key = some ss → -(ss.items.length : Int) ≤ start) :
    zrange (Value.bulk key :: Value.bulk stext :: Value.bulk etext :: extra) s
      = (Value.array (match s.ZSETs key with
          | none => []
          | some ss => zrangeSpec ss.items start stop (decide (extra.length = 1))), s) := by
  have harity : ¬ ((Value.bulk key :: Value.bulk stext :: Value.bulk etext :: extra).length < 3
      ∨ (Value.bulk key :: Value.bulk stext :: Value.bulk etext :: extra).length > 4) := by
    simp only [List.length_cons]; omega
  have h4 : ((Value.bulk key :: Value.bulk stext :: Value.bulk etext :: extra).length = 4)
      ↔ extra.length = 1 := by
    simp only [List.length_cons]; omega
  simp only [zrange, if_neg harity, argBulk, List.getD_cons_zero, List.getD_cons_succ,
    Bulk_bulk, hs, he, h4]
  cases hz : s.ZSETs key with
  | none => rfl
  | some ss =>
    have hstart := hin ss hz
    simp only [zrangeSpec, SortedSet.GetCount]
    have hmin : ∀ x : Int, min x ((ss.items.length : Int) - 1)
        = if x ≥ (ss.items.length : Int) then (ss.items.length : Int) - 1 else x := by
      intro x
      split
      · exact min_eq_right (by omega)
      · exact min_eq_left (by omega)
    rw [hmin]
    have hl : (if start < 0 then (ss.items.length : Int) + start else start)
        = (if start < 0 then start + (ss.items.length : Int) else start) := by
      split <;> omega
    have hr : (if stop < 0 then (ss.items.length : Int) + stop else stop)
        = (if stop < 0 then stop + (ss.items.length : Int) else stop) := by
      split <;> omega
    rw [hl, hr]
    have hl0 : 0 ≤ (if start < 0 then start + (ss.items.length : Int) else start) := by
      split <;> omega
    by_cases hc : (if start < 0 then start + (ss.items.length : Int) else start)
          > (if (if stop < 0 then stop + (ss.items.length : Int) else stop)
                ≥ (ss.items.length : Int) then (ss.items.length : Int) - 1
              else (if stop < 0 then stop + (ss.items.length : Int) else stop))
        ∨ (if start < 0 then start + (ss.items.length : Int) else start)
          ≥ (ss.items.length : Int)
    · rw [if_pos hc, if_pos hc]
    · rw [if_neg hc, if_neg hc, GetByRankRange_eq ss _ _ hl0 (by omega)]

/-- C9 (failing inputs): on the set `{a ↦ 1, b ↦ 2, c ↦ 3, d ↦ 4, e ↦ 5}` the
call `ZRANGE k -7 -1` has the effective start `-2`, which `zrange` does not
clamp; the library takes the rank `-1` it receives as the last entry, and the
reply is `[e]`, where the claim gives all five members. On the set
`{a ↦ 1, b ↦ 2, c ↦ 3}` the call `ZRANGE k -5 0` replies `[c, b, a]`, in
reverse order, where the claim gives `[a]`. -/
theorem C9_negative_start_not_clamped :
    (storeFive.ZSETs (str "k")).map SortedSet.items
      = some [⟨str "a", 1⟩, ⟨str "b", 2⟩, ⟨str "c", 3⟩, ⟨str "d", 4⟩, ⟨str "e", 5⟩] ∧
    (zrange [Value.bulk (str "k"), Value.bulk (str "-7"), Value.bulk (str "-1")] storeFive).1
      = Value.array [Value.bulk (str "e")] ∧
    zrangeSpec [⟨str "a", 1⟩, ⟨str "b", 2⟩, ⟨str "c", 3⟩, ⟨str "d", 4⟩, ⟨str "e", 5⟩]
        (-7) (-1) false
      = [Value.bulk (str "a"), Value.bulk (str "b"), Value.bulk (str "c"),
          Value.bulk (str "d"), Value.bulk (str "e")] ∧
    (storeThree.ZSETs (str "k")).map SortedSet.items
      = some [⟨str "a", 1⟩, ⟨str "b", 2⟩, ⟨str "c", 3⟩] ∧
    (zrange [Value.bulk (str "k"), Value.bulk (str "-5"), Value.bulk (str "0")] storeThree).1
      = Value.array [Value.bulk (str "c"), Value.bulk (str "b"), Value.bulk (str "a")] ∧
    zrangeSpec [⟨str "a", 1⟩, ⟨str "b", 2⟩, ⟨str "c", 3⟩] (-5) 0 false
      = [Value.bulk (str "a")] := by
  refine ⟨by decide, by decide, by decide, by decide, by decide, by decide⟩

/-- On a set of five members `ZRANGE k -2 -1` returns the fourth and the
fifth member by rank. -/
theorem zrange_last_two (s : State) (key : Bytes) (ss : SortedSet) (a b c d e : Item)
    (hz : s.ZSETs key = some ss) (hitems : ss.items = [a, b, c, d, e]) :
    zrange [Value.bulk key, Value.bulk (str "-2"), Value.bulk (str "-1")] s
      = (Value.array [Value.bulk d.member, Value.bulk e.member], s) := by
  rw [zrange_eq_spec s key (str "-2") (str "-1") (-2) (-1) [] (by decide) (by decide)
    (by decide) (fun ss1 h1 => by
      rw [hz] at h1
      injection h1 with h1
      subst h1
      rw [hitems]
      simp), hz]
  simp [hitems, zrangeSpec, rankRange, List.enum, List.enumFrom]

/-! ## C10: `ZREM` -/

theorem presentCount_eq_card (listed : List Bytes) (ss : SortedSet) :
    presentCount listed ss
      = (listed.toFinset.filter (fun m => m ∈ (ss.items.map Item.member).toFinset)).card := by
  unfold presentCount
  rw [← List.card_toFinset, List.toFinset_filter]
  congr 1
  apply Finset.filter_congr
  intro x _
  have h := GetByKey_isNone_iff ss x
  rw [List.mem_toFinset]
  cases hg : ss.GetByKey x with
  | none => simp [hg] at h ⊢; exact h
  | some it => simp [hg] at h ⊢; exact h

theorem members_Remove (ss : SortedSet) (m : Bytes) :
    (((ss.Remove m).2).items.map Item.member).toFinset
      = ((ss.items.map Item.member).toFinset).erase m := by
  ext x
  simp only [SortedSet.Remove, List.mem_toFinset, List.mem_map, mem_dropMember, Finset.mem_erase]
  constructor
  · rintro ⟨it, ⟨h1, h2⟩, rfl⟩
    exact ⟨h2, it, h1, rfl⟩
  · rintro ⟨h2, it, h1, rfl⟩
    exact ⟨it, ⟨h1, h2⟩, rfl⟩

theorem presentCount_cons (m : Bytes) (listed : List Bytes) (ss : SortedSet) :
    presentCount (m :: listed) ss
      = (if (ss.GetByKey m).isSome then 1 else 0) + presentCount listed (ss.Remove m).2 := by
  rw [presentCount_eq_card, presentCount_eq_card, members_Remove]
  set S := (ss.items.map Item.member).toFinset with hS
  set L := listed.toFinset with hL
  have hiff : (ss.GetByKey m).isSome = true ↔ m ∈ S := by
    have h := GetByKey_isNone_iff ss m
    rw [hS, List.mem_toFinset]
    cases hg : ss.GetByKey m with
    | none => simp [hg] at h ⊢; exact h
    | some it => simp [hg] at h ⊢; exact h
  rw [List.toFinset_cons]
  by_cases hm : m ∈ S
  · rw [if_pos (hiff.mpr hm), Finset.filter_insert, if_pos hm]
    have hsub : L.filter (fun x => x ∈ S.erase m) = (L.filter (fun x => x ∈ S)).erase m := by
      ext x
      simp only [Finset.mem_filter, Finset.mem_erase]
      tauto
    rw [hsub]
    have h1 := Finset.card_insert_of_not_mem
      (Finset.not_mem_erase m (L.filter (fun x => x ∈ S)))
    have h2 : insert m ((L.filter (fun x => x ∈ S)).erase m)
        = insert m (L.filter (fun x => x ∈ S)) := by
      ext x
      simp only [Finset.mem_insert, Finset.mem_erase]
      tauto
    rw [h2] at h1
    rw [h1]
    omega
  · rw [if_neg (fun h => hm (hiff.mp h)), Finset.filter_insert, if_neg hm,
      Finset.erase_eq_of_not_mem hm]
    simp

theorem Remove_length (ss : SortedSet) (m : Bytes) :
    (ss.Remove m).2.items.length + (if (ss.GetByKey m).isSome then 1 else 0)
      = ss.items.length := by
  simp only [SortedSet.Remove]
  by_cases h : m ∈ ss.items.map Item.member
  · have h1 := dropMember_length_of_mem m ss.items ss.nodup h
    have h2 : (ss.GetByKey m).isSome = true := by
      cases hg : ss.GetByKey m with
      | some it => rfl
      | none =>
        exfalso
        have := (GetByKey_isNone_iff ss m).mp (by rw [hg]; rfl)
        exact this h
    rw [if_pos h2]
    exact h1
  · have h2 : ¬ (ss.GetByKey m).isSome = true := by
      have := (GetByKey_isNone_iff ss m).mpr h
      cases hg : ss.GetByKey m with
      | some it => rw [hg] at this; cases this
      | none => simp
    rw [if_neg h2, dropMember_of_not_mem m ss.items h]
    rfl

/-- The loop of `zrem`: the final count, the entries left and the size. -/
theorem zremLoop_spec : ∀ (listed : List Bytes) (ss : SortedSet) (c : Int),
    ∃ ss1 : SortedSet,
      zremLoop (listed.map Value.bulk) ss c = (c + (presentCount listed ss : Int), ss1) ∧
      ss1.items = ss.items.filter (fun it => it.member ∉ listed) ∧
      ss1.items.length + presentCount listed ss = ss.items.length := by
  intro listed
  induction listed with
  | nil =>
    intro ss c
    exact ⟨ss, by simp [zremLoop, presentCount], by simp, by simp [presentCount]⟩
  | cons m rest ih =>
    intro ss c
    obtain ⟨ss1, h1, h2, h3⟩ := ih (ss.Remove m).2
      (if (ss.GetByKey m).isSome then c + 1 else c)
    refine ⟨ss1, ?_, ?_, ?_⟩
    · have hstep : zremLoop ((m :: rest).map Value.bulk) ss c
          = zremLoop (rest.map Value.bulk) (ss.Remove m).2
              (if (ss.GetByKey m).isSome then c + 1 else c) := by
        simp only [List.map_cons, zremLoop, Bulk_bulk, SortedSet.Remove]
      rw [hstep, h1, presentCount_cons]
      have harith : (if (ss.GetByKey m).isSome = true then c + 1 else c)
            + (presentCount rest (ss.Remove m).2 : Int)
          = c + (((if (ss.GetByKey m).isSome = true then 1 else 0)
              + presentCount rest (ss.Remove m).2 : Nat) : Int) := by
        split <;> push_cast <;> omega
      rw [harith]
    · rw [h2]
      simp only [SortedSet.Remove, dropMember, List.filter_filter]
      apply List.filter_congr
      intro it _
      by_cases ha : it.member ∈ rest <;> by_cases hb : it.member = m <;>
        simp [ha, hb]
    · have := Remove_length ss m
      rw [presentCount_cons]
      omega

/-- C10: for every store and every call `ZREM key m1..mn` with at least one
member: when the key has no sorted set the reply is `0` and the store is
unchanged; otherwise the set stored afterwards holds exactly the former
entries whose member is not listed (members and scores untouched), and the
reply is the decimal count of distinct listed members that were in the set,
which is the number of entries removed. -/
theorem C10_zrem (s : State) (key : Bytes) (listed : List Bytes) (hne : listed ≠ []) :
    (s.ZSETs key = none →
      zrem (Value.bulk key :: listed.map Value.bulk) s = (Value.string (str "0"), s)) ∧
    (∀ ss, s.ZSETs key = some ss →
      ∃ ss1 : SortedSet,
        zrem (Value.bulk key :: listed.map Value.bulk) s
          = (Value.string (itoa (presentCount listed ss : Int)),
              { s with ZSETs := s.ZSETs.set key ss1 }) ∧
        ss1.items = ss.items.filter (fun it => it.member ∉ listed) ∧
        ss1.items.length + presentCount listed ss = ss.items.length) := by
  have hpos : 0 < listed.length := List.length_pos.mpr hne
  have harity : ¬ (Value.bulk key :: listed.map Value.bulk).length < 2 := by
    simp only [List.length_cons, List.length_map]; omega
  constructor
  · intro hz
    simp only [zrem, if_neg harity, argBulk, List.getD_cons_zero, Bulk_bulk, hz]
  · intro ss hz
    obtain ⟨ss1, h1, h2, h3⟩ := zremLoop_spec listed ss 0
    refine ⟨ss1, ?_, h2, h3⟩
    simp only [zrem, if_neg harity, argBulk, List.getD_cons_zero, Bulk_bulk, hz,
      List.drop_succ_cons, List.drop_zero, h1]
    simp

/-- C10, at the set `{a ↦ 1}` under key `k` and the call `ZREM k a a b`:
`a` is listed twice and counted once, the reply is `1`. -/
theorem C10_zrem_witness :
    [str "a", str "a", str "b"] ≠ [] ∧
    (zrem (Value.bulk (str "k") :: [str "a", str "a", str "b"].map Value.bulk)
      storeWithZset).1 = Value.string (str "1") ∧
    (storeWithZset.ZSETs (str "k") = none →
      zrem (Value.bulk (str "k") :: [str "a", str "a", str "b"].map Value.bulk) storeWithZset
        = (Value.string (str "0"), storeWithZset)) ∧
    (∀ ss, storeWithZset.ZSETs (str "k") = some ss →
      ∃ ss1 : SortedSet,
        zrem (Value.bulk (str "k") :: [str "a", str "a", str "b"].map Value.bulk) storeWithZset
          = (Value.string (itoa (presentCount [str "a", str "a", str "b"] ss : Int)),
              { storeWithZset with ZSETs := storeWithZset.ZSETs.set (str "k") ss1 }) ∧
        ss1.items = ss.items.filter (fun it => it.member ∉ [str "a", str "a", str "b"]) ∧
        ss1.items.length + presentCount [str "a", str "a", str "b"] ss = ss.items.length) :=
  ⟨by decide, by decide,
    C10_zrem storeWithZset (str "k") [str "a", str "a", str "b"] (by decide)⟩

/-! ## The client path of `EXPIRE` on a missing key, in general -/

/-- For every server, every key in neither the String Store nor the Hash
Store and every integer seconds argument, the client request `EXPIRE key s`
replies `0` and leaves the four collections as they were, while the journal
gains the record `EXPIRESAT key (now + s)`. -/
theorem handleRequest_expire_missing (sv : Server) (key stext : Bytes) (sec nowJ nowH : Int)
    (h1 : sv.state.SETs key = none) (h2 : sv.state.HSETs key = none)
    (hsec : parseInt stext = some sec) :
    handleRequest (Value.array [Value.bulk (str "EXPIRE"), Value.bulk key, Value.bulk stext])
        nowJ nowH sv
      = (some (Value.string (str "0")),
          ⟨sv.state, sv.file ++ (Value.array [Value.bulk (str "EXPIRESAT"), Value.bulk key,
            Value.bulk (itoa (wrap64 (nowJ + sec)))]).Marshal⟩) := by
  have hup : toUpper (str "EXPIRE") = str "EXPIRE" := by decide
  have hH : Handlers (str "EXPIRE") = some expire := by
    simp only [Handlers]
    rw [if_neg (by decide), if_neg (by decide), if_neg (by decide), if_neg (by decide),
      if_neg (by decide), if_neg (by decide), if_neg (by decide), if_pos trivial]
  have hn1 : ¬ str "EXPIRE" = str "SET" := by decide
  have hn2 : ¬ str "EXPIRE" = str "HSET" := by decide
  have hn3 : ¬ str "EXPIRE" = str "ZADD" := by decide
  simp only [handleRequest, Value.array, Value.Typ, Value.Array, ne_eq, not_true_eq_false,
    if_false, List.length_cons, List.length_nil, argBulk, List.getD_cons_zero, Bulk_bulk, hup,
    hH, hn1, hn2, hn3, or_self, List.drop_succ_cons, List.drop_zero, if_true,
    HandleExpireWrite, List.getD_cons_succ, hsec, AofWrite, expire, h1, h2]
  simp

/-! ## C13: the encoding format -/

theorem marshalElems_eq_flatten (a : List Value) :
    Value.marshalElems a = (a.map Value.Marshal).flatten := by
  induction a with
  | nil => simp [Value.marshalElems]
  | cons v vs ih => simp [Value.marshalElems, ih]

/-- C13: for every value, `Marshal` writes `+` text CRLF for a SimpleString,
`-` text CRLF for an Error, `$` decimal byte length CRLF bytes CRLF for a
BulkString, `*` decimal element count CRLF and then the encodings of the
elements in order for an Array, and exactly the five bytes `$-1\r\n` for
Null; whatever the value, the output never starts with the integer marker
`:`. -/
theorem C13_marshal_format (s n b : Bytes) (a : List Value) :
    (Value.mk "string" s n b a).Marshal = STRING :: (s ++ CRLF) ∧
    (Value.mk "error" s n b a).Marshal = ERROR :: (s ++ CRLF) ∧
    (Value.mk "Bulk" s n b a).Marshal = BULK :: (itoa (b.length : Int) ++ CRLF ++ b ++ CRLF) ∧
    (Value.mk "Array" s n b a).Marshal
      = ARRAY :: (itoa (a.length : Int) ++ CRLF ++ (a.map Value.Marshal).flatten) ∧
    (Value.mk "null" s n b a).Marshal = [36, 45, 49, 13, 10] ∧
    (Value.mk "null" s n b a).Marshal.length = 5 ∧
    (∀ v : Value, v.Marshal.head? ≠ some INTEGER) := by
  refine ⟨by simp [Value.Marshal], by simp [Value.Marshal], by simp [Value.Marshal],
    by simp [Value.Marshal, marshalElems_eq_flatten], by simp [Value.Marshal]; decide,
    by simp [Value.Marshal]; decide, ?_⟩
  intro v
  cases v with
  | mk typ s1 n1 b1 a1 =>
    simp only [Value.Marshal]
    split_ifs <;> first | decide | simp [ARRAY, BULK, STRING, ERROR, INTEGER]

/-! ## C14, C19, C20: framing -/

/-- C14 (failing inputs): after the header `$5` the stream ends with two
payload bytes, and `Read` returns a BulkString of five bytes (the two read
and three zero bytes) with no error; a missing trailing CRLF is not reported
either; the negative length `$-1` makes `make` panic; the negative count
`*-1` yields an empty Array with no error. Only the non-numeric length line
is rejected with an error. -/
theorem C14_truncated_bulk_accepted :
    (NewResp (str "$5\r\nab")).Read = .ok (Value.bulk [97, 98, 0, 0, 0], ⟨[], []⟩) ∧
    (NewResp (str "$2\r\nab")).Read = .ok (Value.bulk (str "ab"), ⟨[], []⟩) ∧
    (NewResp (str "$-1\r\n")).Read = .error (Err.panic, ⟨[], []⟩) ∧
    (NewResp (str "*-1\r\n")).Read = .ok (Value.array [], ⟨[], []⟩) ∧
    (NewResp (str "$x\r\nab\r\n")).Read = .error (Err.NumError, ⟨str "ab\r\n", []⟩) := by
  refine ⟨by decide!, by decide!, by decide!, by decide!, by decide!⟩

/-- C19 (failing input): on the stream `a\rb\r\n` the first CRLF follows
`a\rb`, but `ReadLine` stops at the carriage return followed by `b`: it
returns `a` and leaves `\r\n` unread. -/
theorem C19_stops_at_lone_CR :
    (NewResp (str "a\rb\r\n")).ReadLine = .ok (str "a", ⟨str "\r\n", []⟩) ∧
    (NewResp (str "a\rb\r\n")).ReadLine ≠ .ok (str "a\rb", ⟨[], []⟩) := by
  refine ⟨by decide!, by decide!⟩

/-- The part of C19 that holds: when no carriage return precedes the first
CRLF of the buffered bytes, `ReadLine` returns the bytes before that CRLF
and leaves exactly the bytes after it; and on a stream that ends first
(here: the empty one) it fails with `io.EOF`. -/
theorem ReadLine_first_CRLF (ds rest src : Bytes) (hds : ∀ d ∈ ds, d ≠ CR) :
    Reader.ReadLine ⟨ds ++ CRLF ++ rest, src⟩ = .ok (ds, ⟨rest, src⟩) ∧
    Reader.ReadLine ⟨[], []⟩ = .error (Err.EOF, ⟨[], []⟩) := by
  constructor
  · have h := ReadLine_line ds LF rest src hds
    simpa [CRLF] using h
  · decide

/-- C20 (failing input): the BulkString of 4090 bytes `a` is an Array / Bulk
value; its encoding has 4099 bytes, the payload straddles the end of the
4096-byte read buffer, and `Read` returns a BulkString whose last byte is
zero instead of the value. -/
theorem C20_long_bulk_not_decoded :
    (Value.bulk (List.replicate 4090 97)).IsAB ∧
    (NewResp ((Value.bulk (List.replicate 4090 97)).Marshal ++ [])).Read
      = .ok (Value.bulk (List.replicate 4089 97 ++ [0]), ⟨[], []⟩) ∧
    (NewResp ((Value.bulk (List.replicate 4090 97)).Marshal ++ [])).Read
      ≠ .ok (Value.bulk (List.replicate 4090 97), ⟨[], []⟩) :=
  ⟨Value.IsAB.bulk _, by decide!, by decide!⟩

/-- The part of C20 that holds: for every Array / Bulk value and every
trailing bytes, when encoding and trailing bytes together fit the read
buffer, `Read` returns the value and leaves exactly the trailing bytes. -/
theorem Read_Marshal_small (v : Value) (hv : v.IsAB) (rest : Bytes)
    (hlen : (v.Marshal ++ rest).length ≤ defaultBufSize) :
    (NewResp (v.Marshal ++ rest)).Read = .ok (v, ⟨rest, []⟩) := by
  unfold Reader.Read NewResp
  rw [readValue_fill _ _ hlen]
  have hl : v.Marshal.length ≤ (v.Marshal ++ rest).length := by simp
  have h := readValue_Marshal v hv ((v.Marshal ++ rest).length + 1) rest [] (by omega)
    (by unfold defaultBufSize at hlen; omega)
  simpa [Reader.rest] using h

/-! ## C17: arity errors -/

/-- C17: for each of SET, GET, HSET, HGET, HGETALL, EXPIRE, TTL, ZADD, ZRANGE
and ZREM, every call whose argument count violates the arity of the command
returns the Error reply `Wrong number of arguments for <COMMAND> command`,
with the name of the command, and leaves the four collections unchanged. -/
theorem C17_arity_errors (args : List Value) (now : Int) (s : State) :
    (args.length ≠ 2 →
      set args s
        = (Value.error (str "Wrong number of arguments for SET command"), s)) ∧
    (args.length ≠ 1 →
      get args now s
        = (Value.error (str "Wrong number of arguments for GET command"), s)) ∧
    (args.length ≠ 3 →
      hset args s
        = (Value.error (str "Wrong number of arguments for HSET command"), s)) ∧
    (args.length ≠ 2 →
      hget args now s
        = (Value.error (str "Wrong number of arguments for HGET command"), s)) ∧
    (args.length ≠ 1 →
      hgetAll args now s
        = (Value.error (str "Wrong number of arguments for HGETALL command"), s)) ∧
    (args.length ≠ 2 →
      expire args now s
        = (Value.error (str "Wrong number of arguments for EXPIRE command"), s)) ∧
    (args.length ≠ 1 →
      ttl args now s
        = (Value.error (str "Wrong number of arguments for TTL command"), s)) ∧
    ((args.length < 3 ∨ args.length % 2 = 0) →
      zadd args s
        = (Value.error (str "Wrong number of arguments for ZADD command"), s)) ∧
    ((args.length < 3 ∨ args.length > 4) →
      zrange args s
        = (Value.error (str "Wrong number of arguments for ZRANGE command"), s)) ∧
    (args.length < 2 →
      zrem args s
        = (Value.error (str "Wrong number of arguments for ZREM command"), s)) := by
  refine ⟨fun h => by simp [set, h], fun h => by simp [get, h], fun h => by simp [hset, h], fun h => by simp [hget, h], fun h => by simp [hgetAll, h], fun h => by simp [expire, h], fun h => by simp [ttl, h], fun h => by simp [zadd, h], fun h => by simp [zrange, h], fun h => by simp [zrem, h]⟩

/-- C17, at the empty argument list (which violates every arity), clock 0 and
the empty store. -/
theorem C17_arity_errors_witness :
    set [] State.empty
      = (Value.error (str "Wrong number of arguments for SET command"), State.empty) ∧
    get [] 0 State.empty
      = (Value.error (str "Wrong number of arguments for GET command"), State.empty) ∧
    hset [] State.empty
      = (Value.error (str "Wrong number of arguments for HSET command"), State.empty) ∧
    hget [] 0 State.empty
      = (Value.error (str "Wrong number of arguments for HGET command"), State.empty) ∧
    hgetAll [] 0 State.empty
      = (Value.error (str "Wrong number of arguments for HGETALL command"), State.empty) ∧
    expire [] 0 State.empty
      = (Value.error (str "Wrong number of arguments for EXPIRE command"), State.empty) ∧
    ttl [] 0 State.empty
      = (Value.error (str "Wrong number of arguments for TTL command"), State.empty) ∧
    zadd [] State.empty
      = (Value.error (str "Wrong number of arguments for ZADD command"), State.empty) ∧
    zrange [] State.empty
      = (Value.error (str "Wrong number of arguments for ZRANGE command"), State.empty) ∧
    zrem [] State.empty
      = (Value.error (str "Wrong number of arguments for ZREM command"), State.empty) :=
  ⟨(C17_arity_errors [] 0 State.empty).1 (by decide),
    (C17_arity_errors [] 0 State.empty).2.1 (by decide),
    (C17_arity_errors [] 0 State.empty).2.2.1 (by decide),
    (C17_arity_errors [] 0 State.empty).2.2.2.1 (by decide),
    (C17_arity_errors [] 0 State.empty).2.2.2.2.1 (by decide),
    (C17_arity_errors [] 0 State.empty).2.2.2.2.2.1 (by decide),
    (C17_arity_errors [] 0 State.empty).2.2.2.2.2.2.1 (by decide),
    (C17_arity_errors [] 0 State.empty).2.2.2.2.2.2.2.1 (by decide),
    (C17_arity_errors [] 0 State.empty).2.2.2.2.2.2.2.2.1 (by decide),
    (C17_arity_errors [] 0 State.empty).2.2.2.2.2.2.2.2.2 (by decide)⟩

/-! ## C18: unknown commands on the client path -/

theorem Handlers_expiresat : Handlers (toUpper (str "ExpiresAt")) = none := by
  have h : toUpper (str "ExpiresAt") = str "EXPIRESAT" := by decide
  rw [h]
  simp only [Handlers]
  rw [if_neg (by decide), if_neg (by decide), if_neg (by decide), if_neg (by decide),
    if_neg (by decide), if_neg (by decide), if_neg (by decide), if_neg (by decide),
    if_neg (by decide), if_neg (by decide), if_neg (by decide), if_neg (by decide)]

theorem Handlers_ping : Handlers (toUpper (str "pInG")) = some (fun a _ s => ping a s) := by
  have h : toUpper (str "pInG") = str "PING" := by decide
  rw [h]
  simp only [Handlers]
  rw [if_pos trivial]

/-- C18: for every client request (an Array with a first element, its name
ASCII text) the command is looked up under the upper-cased name. When the
registry has no entry for it, the reply is the empty SimpleString and the
four collections and the journal are unchanged; `EXPIRESAT`, in any letter
case, has no entry. When the registry has an entry, whatever the letter case
of the name, the reply and the store are those of that handler. -/
theorem C18_unknown_command (first : Value) (args : List Value) (nowJ nowH : Int) (sv : Server)
    (hascii : ∀ c ∈ first.Bulk, c < 128) :
    (Handlers (toUpper first.Bulk) = none →
      handleRequest (Value.array (first :: args)) nowJ nowH sv
        = (some (Value.string []), sv)) ∧
    (∀ name, toUpper name = str "EXPIRESAT" → Handlers (toUpper name) = none) ∧
    (∀ h, Handlers (toUpper first.Bulk) = some h →
      (handleRequest (Value.array (first :: args)) nowJ nowH sv).1
        = some (h args nowH sv.state).1 ∧
      (handleRequest (Value.array (first :: args)) nowJ nowH sv).2.state
        = (h args nowH sv.state).2) := by
  refine ⟨?_, ?_, ?_⟩
  · intro hunk
    simp [handleRequest, Value.array, Value.Typ, Value.Array, argBulk, hunk]
  · intro name hname
    rw [hname]
    simp only [Handlers]
    rw [if_neg (by decide), if_neg (by decide), if_neg (by decide), if_neg (by decide),
      if_neg (by decide), if_neg (by decide), if_neg (by decide), if_neg (by decide),
      if_neg (by decide), if_neg (by decide), if_neg (by decide), if_neg (by decide)]
  · intro h hh
    simp [handleRequest, Value.array, Value.Typ, Value.Array, argBulk, hh]

/-- C18, at the requests `ExpiresAt k 5` (no entry) and `pInG` (the entry
`PING`) on a fresh server. -/
theorem C18_unknown_command_witness :
    (∀ c ∈ (Value.bulk (str "ExpiresAt")).Bulk, c < 128) ∧
    Handlers (toUpper (Value.bulk (str "ExpiresAt")).Bulk) = none ∧
    handleRequest (Value.array
        (Value.bulk (str "ExpiresAt") :: [Value.bulk (str "k"), Value.bulk (str "5")]))
        100 100 Server.init
      = (some (Value.string []), Server.init) ∧
    (handleRequest (Value.array (Value.bulk (str "pInG") :: [])) 100 100 Server.init).1
      = some (Value.string (str "PONG")) :=
  ⟨by decide, Handlers_expiresat,
    (C18_unknown_command (Value.bulk (str "ExpiresAt"))
      [Value.bulk (str "k"), Value.bulk (str "5")] 100 100 Server.init (by decide)).1
      Handlers_expiresat,
    ((C18_unknown_command (Value.bulk (str "pInG")) [] 100 100 Server.init (by decide)).2.2
      _ Handlers_ping).1⟩

/-! ## C11: partial application of `ZADD` -/

theorem zaddArgs_length (key : Bytes) (pairs : List (Bytes × Bytes)) :
    (zaddArgs key pairs).length = 1 + 2 * pairs.length := by
  unfold zaddArgs
  induction pairs with
  | nil => rfl
  | cons p ps ih =>
    simp only [List.length_cons, List.flatMap_cons, List.length_append, List.length_nil] at ih ⊢
    omega

/-- The loop of `zadd` up to the first score that does not parse. -/
theorem zaddLoop_bad_score : ∀ (pre : List (Bytes × Bytes)) (ss : SortedSet) (c : Int)
    (bad m : Bytes) (post : List (Bytes × Bytes)),
    (∀ p ∈ pre, (parseInt p.1).isSome) → parseInt bad = none →
    ∃ ss1 : SortedSet,
      zaddLoop ((pre ++ (bad, m) :: post).flatMap (fun p => [Value.bulk p.1, Value.bulk p.2]))
        ss c = (none, ss1) ∧
      ss1.items.length = ss.items.length + newCount (pre.map Prod.snd) ss ∧
      ∀ x, ss1.GetByKey x =
        match lastScore pre x with
        | some sc => some ⟨x, sc⟩
        | none => ss.GetByKey x := by
  intro pre
  induction pre with
  | nil =>
    intro ss c bad m post _ hbad
    refine ⟨ss, ?_, by simp [newCount], fun x => by simp [lastScore]⟩
    rw [List.nil_append, List.flatMap_cons]
    change zaddLoop (Value.bulk bad :: Value.bulk m ::
      post.flatMap (fun p => [Value.bulk p.1, Value.bulk p.2])) ss c = _
    simp only [zaddLoop, Bulk_bulk, hbad]
  | cons p rest ih =>
    intro ss c bad m post hp hbad
    obtain ⟨sc, hsc⟩ := Option.isSome_iff_exists.mp (hp p (List.mem_cons_self _ _))
    obtain ⟨ss1, h1, h2, h3⟩ := ih (ss.AddOrUpdate p.2 sc)
      (if (ss.GetByKey p.2).isNone then c + 1 else c) bad m post
      (fun q hq => hp q (List.mem_cons_of_mem _ hq)) hbad
    refine ⟨ss1, ?_, ?_, ?_⟩
    · rw [List.cons_append, List.flatMap_cons]
      change zaddLoop (Value.bulk p.1 :: Value.bulk p.2 ::
        (rest ++ (bad, m) :: post).flatMap (fun p => [Value.bulk p.1, Value.bulk p.2])) ss c = _
      simp only [zaddLoop, Bulk_bulk, hsc]
      exact h1
    · rw [h2, AddOrUpdate_length, List.map_cons, newCount_cons p.2 _ ss sc]
      omega
    · intro x
      rw [h3 x]
      simp only [lastScore]
      cases hl : lastScore rest x with
      | some sc1 => rfl
      | none =>
        simp only [GetByKey_AddOrUpdate]
        by_cases hx : x = p.2
        · simp [hx, hsc]
        · have hx2 : ¬ p.2 = x := fun h => hx h.symm
          simp [hx, hx2]

/-- C11: for every store and every call `ZADD key (score member)+` (valid
arity) in which the pairs `pre` have integer scores and the next pair has a
score that is not an integer, the reply is the Error `Invalid score for
ZADD`, and the set stored under the key holds exactly the effect of the
pairs `pre`: every member listed in `pre` has the score of its last pair in
`pre`, every other member has its former entry, and no pair from the failing
one onward has been applied. -/
theorem C11_zadd_partial (s : State) (key : Bytes) (pre post : List (Bytes × Bytes))
    (bad m : Bytes) (hpre : ∀ p ∈ pre, (parseInt p.1).isSome) (hbad : parseInt bad = none) :
    ∃ ss1 : SortedSet,
      zadd (zaddArgs key (pre ++ (bad, m) :: post)) s
        = (Value.error (str "Invalid score for ZADD"),
            { s with ZSETs := s.ZSETs.set key ss1 }) ∧
      ss1.items.length = (s.zsetOf key).items.length + newCount (pre.map Prod.snd) (s.zsetOf key) ∧
      ∀ x, ss1.GetByKey x =
        match lastScore pre x with
        | some sc => some ⟨x, sc⟩
        | none => (s.zsetOf key).GetByKey x := by
  obtain ⟨ss1, h1, h2, h3⟩ := zaddLoop_bad_score pre (s.zsetOf key) 0 bad m post hpre hbad
  refine ⟨ss1, ?_, h2, h3⟩
  have harity : ¬ ((zaddArgs key (pre ++ (bad, m) :: post)).length < 3
      ∨ (zaddArgs key (pre ++ (bad, m) :: post)).length % 2 = 0) := by
    rw [zaddArgs_length]
    simp only [List.length_append, List.length_cons]
    omega
  have hdrop : (zaddArgs key (pre ++ (bad, m) :: post)).drop 1
      = (pre ++ (bad, m) :: post).flatMap (fun p => [Value.bulk p.1, Value.bulk p.2]) := by
    simp [zaddArgs]
  have hkey : argBulk (zaddArgs key (pre ++ (bad, m) :: post)) 0 = key := by
    simp [argBulk, zaddArgs, Value.bulk, Value.Bulk]
  simp only [zadd, if_neg harity, hdrop, hkey]
  have hz : (match s.ZSETs key with
      | none => SortedSet.New
      | some ss => ss) = s.zsetOf key := rfl
  rw [hz, h1]

/-- C11, at the empty store and the call `ZADD k 1 a x b 3 c`: the reply is
the Error and only `a` has been added. -/
theorem C11_zadd_partial_witness :
    (∀ p ∈ [(str "1", str "a")], (parseInt p.1).isSome) ∧ parseInt (str "x") = none ∧
    (zadd (zaddArgs (str "k") ([(str "1", str "a")] ++ (str "x", str "b") :: [(str "3", str "c")]))
      State.empty).1 = Value.error (str "Invalid score for ZADD") ∧
    ((zadd (zaddArgs (str "k") ([(str "1", str "a")] ++ (str "x", str "b") :: [(str "3", str "c")]))
      State.empty).2.ZSETs (str "k")).map SortedSet.items = some [⟨str "a", 1⟩] ∧
    ∃ ss1 : SortedSet,
      zadd (zaddArgs (str "k") ([(str "1", str "a")] ++ (str "x", str "b") :: [(str "3", str "c")]))
          State.empty
        = (Value.error (str "Invalid score for ZADD"),
            { State.empty with ZSETs := State.empty.ZSETs.set (str "k") ss1 }) ∧
      ss1.items.length = (State.empty.zsetOf (str "k")).items.length
        + newCount ([(str "1", str "a")].map Prod.snd) (State.empty.zsetOf (str "k")) ∧
      ∀ x, ss1.GetByKey x =
        match lastScore [(str "1", str "a")] x with
        | some sc => some ⟨x, sc⟩
        | none => (State.empty.zsetOf (str "k")).GetByKey x :=
  ⟨by decide, by decide, by decide, by decide,
    C11_zadd_partial State.empty (str "k") [(str "1", str "a")] [(str "3", str "c")]
      (str "x") (str "b") (by decide) (by decide)⟩

/-! ## C12: `ZADD`, `ZADD`, `ZRANGE` -/

/-- C12 (as stated, refuted): on the empty store, after `ZADD k 1 a 2 b`
(reply `2`) and `ZADD k 3 a` (reply `0`), the reply of
`ZRANGE k 0 -1 WITHSCORES` is the Array `[b, 2, a, 3]`, in ascending score
order, and not `[a, 3, b, 2]`. -/
theorem C12_counterexample :
    (zrange (zrangeAll (str "k"))
      (zadd (zaddA3 (str "k")) (zadd (zaddAB (str "k")) State.empty).2).2).1
      = Value.array [Value.bulk (str "b"), Value.bulk (str "2"),
          Value.bulk (str "a"), Value.bulk (str "3")] ∧
    (zrange (zrangeAll (str "k"))
      (zadd (zaddA3 (str "k")) (zadd (zaddAB (str "k")) State.empty).2).2).1
      ≠ Value.array [Value.bulk (str "a"), Value.bulk (str "3"),
          Value.bulk (str "b"), Value.bulk (str "2")] := by
  refine ⟨by decide, by decide⟩

/-- C12 (amended): for every store and key `k` with no sorted set,
`ZADD k 1 a 2 b` returns `2`, a following `ZADD k 3 a` returns `0`, and a
following `ZRANGE k 0 -1 WITHSCORES` returns the Array `[b, 2, a, 3]`. -/
theorem C12_zadd_zrange (s : State) (k : Bytes) (hk : s.ZSETs k = none) :
    (zadd (zaddAB k) s).1 = Value.string (str "2") ∧
    (zadd (zaddA3 k) (zadd (zaddAB k) s).2).1 = Value.string (str "0") ∧
    (zrange (zrangeAll k) (zadd (zaddA3 k) (zadd (zaddAB k) s).2).2).1
      = Value.array [Value.bulk (str "b"), Value.bulk (str "2"),
          Value.bulk (str "a"), Value.bulk (str "3")] := by
  have hloop1 : zaddLoop [Value.bulk (str "1"), Value.bulk (str "a"), Value.bulk (str "2"),
      Value.bulk (str "b")] SortedSet.New 0
      = (some 2, setAB) := by decide
  have hloop2 : zaddLoop [Value.bulk (str "3"), Value.bulk (str "a")]
      setAB 0
      = (some 0, setBA) := by decide
  have h1 : zadd (zaddAB k) s = (Value.string (str "2"),
      { s with ZSETs := s.ZSETs.set k setAB }) := by
    simp only [zadd, zaddAB, zaddArgs, List.flatMap_cons, List.flatMap_nil, List.cons_append,
      List.nil_append, List.append_nil, List.length_cons, List.length_nil, argBulk,
      List.getD_cons_zero, Bulk_bulk, hk, List.drop_succ_cons, List.drop_zero, hloop1]
    simp
    decide
  have h2 : zadd (zaddA3 k) (zadd (zaddAB k) s).2 = (Value.string (str "0"),
      { s with ZSETs := s.ZSETs.set k setBA }) := by
    rw [h1]
    simp only [zadd, zaddA3, zaddArgs, List.flatMap_cons, List.flatMap_nil, List.cons_append,
      List.nil_append, List.append_nil, List.length_cons, List.length_nil, argBulk,
      List.getD_cons_zero, Bulk_bulk, GoMap.set, if_true, List.drop_succ_cons, List.drop_zero,
      hloop2]
    simp [GoMap.set]
    constructor
    · decide
    · funext x
      unfold GoMap.set
      split <;> rfl
  refine ⟨by rw [h1], by rw [h2], ?_⟩
  rw [h2]
  have hr := zrange_eq_spec
    { s with ZSETs := s.ZSETs.set k setBA }
    k (str "0") (str "-1") 0 (-1) [Value.bulk (str "WITHSCORES")] (by decide) (by decide)
    (by decide) (fun ss _ => by omega)
  unfold zrangeAll
  rw [hr]
  simp only [GoMap.set, if_true]
  decide

/-- C12 (amended), at the empty store and the key `k`. -/
theorem C12_zadd_zrange_witness :
    State.empty.ZSETs (str "k") = none ∧
    (zadd (zaddAB (str "k")) State.empty).1 = Value.string (str "2") ∧
    (zadd (zaddA3 (str "k")) (zadd (zaddAB (str "k")) State.empty).2).1
      = Value.string (str "0") ∧
    (zrange (zrangeAll (str "k"))
      (zadd (zaddA3 (str "k")) (zadd (zaddAB (str "k")) State.empty).2).2).1
      = Value.array [Value.bulk (str "b"), Value.bulk (str "2"),
          Value.bulk (str "a"), Value.bulk (str "3")] :=
  ⟨by decide, C12_zadd_zrange State.empty (str "k") (by decide)⟩

/-! ## Termination of the decoder and of replay -/

theorem ReadByte_spec (r : Reader) :
    (r.ReadByte = .error (Err.EOF, r) ∧ r.rest.length = 0) ∨
    (∃ b r1, r.ReadByte = .ok (b, r1) ∧ r1.rest.length + 1 = r.rest.length) := by
  obtain ⟨buf, src⟩ := r
  cases buf with
  | cons b bs =>
    right
    exact ⟨b, ⟨bs, src⟩, rfl, by simp [Reader.rest]⟩
  | nil =>
    cases hsrc : src with
    | nil => left; simp [Reader.ReadByte, Reader.rest]
    | cons c cs =>
      right
      refine ⟨c, ⟨cs.take (defaultBufSize - 1), (c :: cs).drop defaultBufSize⟩, ?_, ?_⟩
      · simp [Reader.ReadByte, defaultBufSize]
      · simp only [Reader.rest, List.length_append, List.length_take, List.length_drop,
          List.length_cons, List.nil_append, defaultBufSize]
        omega

theorem readLineLoop_le : ∀ (f : Nat) (r : Reader) (line : Bytes),
    r.rest.length < f → Res.le r.rest.length (readLineLoop f r line) := by
  intro f
  induction f with
  | zero => intro r line h; omega
  | succ f ih =>
    intro r line h
    rcases ReadByte_spec r with ⟨he, _⟩ | ⟨b, r1, hb, hlen⟩
    · simp only [readLineLoop, he, Res.le]
      exact ⟨by decide, le_refl _⟩
    · simp only [readLineLoop, hb]
      split
      · simp only [Res.le]; omega
      · have := ih r1 (line ++ [b]) (by omega)
        cases hres : readLineLoop f r1 (line ++ [b]) with
        | ok p => rw [hres] at this; simp only [Res.le] at this ⊢; omega
        | error p => rw [hres] at this; simp only [Res.le] at this ⊢; exact ⟨this.1, by omega⟩

theorem ReadLine_le (r : Reader) : Res.le r.rest.length r.ReadLine :=
  readLineLoop_le _ r [] (by omega)

theorem ReadInteger_le (r : Reader) : Res.le r.rest.length r.ReadInteger := by
  have h := ReadLine_le r
  unfold Reader.ReadInteger
  cases hres : r.ReadLine with
  | error p => rw [hres] at h; exact h
  | ok p =>
    rw [hres] at h
    obtain ⟨line, r1⟩ := p
    simp only [Res.le] at h
    simp only
    cases hp : parseInt line with
    | none => simp only [Res.le]; exact ⟨by decide, h⟩
    | some v => simp only [Res.le]; exact h

theorem ReadMake_le (r : Reader) (n : Nat) : (r.ReadMake n).2.rest.length ≤ r.rest.length := by
  obtain ⟨buf, src⟩ := r
  unfold Reader.ReadMake
  split
  · exact le_refl _
  · cases buf with
    | nil =>
      simp only [Reader.rest, List.nil_append]
      split
      · simp
      · simp only [List.length_append, List.length_drop, List.length_take]
        omega
    | cons b bs =>
      simp only [Reader.rest, List.length_append, List.length_drop, List.length_cons]
      omega

theorem ReadBulk_le (r : Reader) : Res.le r.rest.length r.ReadBulk := by
  have h := ReadInteger_le r
  unfold Reader.ReadBulk
  cases hres : r.ReadInteger with
  | error p => rw [hres] at h; exact h
  | ok p =>
    rw [hres] at h
    obtain ⟨len, r1⟩ := p
    simp only [Res.le] at h
    simp only
    split
    · exact ⟨by decide, h⟩
    · have h2 := ReadMake_le r1 len.toNat
      have h3 := ReadLine_le (r1.ReadMake len.toNat).2
      cases hl : (r1.ReadMake len.toNat).2.ReadLine with
      | error q =>
        rw [hl] at h3
        obtain ⟨e, r3⟩ := q
        simp only [Res.le] at h3 ⊢
        omega
      | ok q =>
        rw [hl] at h3
        obtain ⟨l, r3⟩ := q
        simp only [Res.le] at h3 ⊢
        omega

theorem readElems_le (rd : Reader → Res Value) (N : Nat)
    (hrd : ∀ r, r.rest.length ≤ N → Res.le r.rest.length (rd r)) :
    ∀ (n : Nat) (r : Reader) (acc : List Value), r.rest.length ≤ N →
      Res.le r.rest.length (readElems rd n r acc) := by
  intro n
  induction n with
  | zero => intro r acc _; simp [readElems, Res.le]
  | succ n ih =>
    intro r acc hr
    have h := hrd r hr
    simp only [readElems]
    cases hres : rd r with
    | error p => rw [hres] at h; exact h
    | ok p =>
      rw [hres] at h
      obtain ⟨v, r1⟩ := p
      simp only [Res.le] at h
      have h2 := ih r1 (acc ++ [v]) (by omega)
      simp only
      cases hres2 : readElems rd n r1 (acc ++ [v]) with
      | error q =>
        rw [hres2] at h2
        obtain ⟨e, r3⟩ := q
        simp only [Res.le] at h2 ⊢
        exact ⟨h2.1, by omega⟩
      | ok q =>
        rw [hres2] at h2
        obtain ⟨vs, r3⟩ := q
        simp only [Res.le] at h2 ⊢
        omega

/-- With a budget above the number of unread bytes `readValue` never runs
out of budget: it fails with `io.EOF` on an exhausted stream without
consuming anything, and otherwise consumes at least one byte. -/
theorem readValue_progress : ∀ (f : Nat) (r : Reader), r.rest.length < f →
    (readValue f r = .error (Err.EOF, r) ∧ r.rest.length = 0) ∨
    (0 < r.rest.length ∧ Res.le (r.rest.length - 1) (readValue f r)) := by
  intro f
  induction f with
  | zero => intro r h; omega
  | succ f ih =>
    intro r h
    rcases ReadByte_spec r with ⟨he, h0⟩ | ⟨c, r1, hb, hlen⟩
    · left
      exact ⟨by simp only [readValue, he], h0⟩
    · right
      refine ⟨by omega, ?_⟩
      have hr1 : r.rest.length - 1 = r1.rest.length := by omega
      rw [hr1]
      simp only [readValue, hb]
      split
      · have h1 := ReadInteger_le r1
        cases hres : r1.ReadInteger with
        | error p => rw [hres] at h1; exact h1
        | ok p =>
          rw [hres] at h1
          obtain ⟨len, r2⟩ := p
          simp only [Res.le] at h1
          have hrd : ∀ r3 : Reader, r3.rest.length ≤ r2.rest.length →
              Res.le r3.rest.length (readValue f r3) := by
            intro r3 h3
            rcases ih r3 (by omega) with ⟨he3, _⟩ | ⟨hpos, hle⟩
            · rw [he3]; exact ⟨by decide, le_refl _⟩
            · cases hv : readValue f r3 with
              | error q =>
                rw [hv] at hle
                obtain ⟨e, r4⟩ := q
                simp only [Res.le] at hle ⊢
                exact ⟨hle.1, by omega⟩
              | ok q =>
                rw [hv] at hle
                obtain ⟨v, r4⟩ := q
                simp only [Res.le] at hle ⊢
                omega
          have h2 := readElems_le (readValue f) r2.rest.length hrd len.toNat r2 [] (le_refl _)
          simp only
          cases hres2 : readElems (readValue f) len.toNat r2 [] with
          | error q =>
            rw [hres2] at h2
            obtain ⟨e, r3⟩ := q
            simp only [Res.le] at h2 ⊢
            exact ⟨h2.1, by omega⟩
          | ok q =>
            rw [hres2] at h2
            obtain ⟨vs, r3⟩ := q
            simp only [Res.le] at h2 ⊢
            omega
      · split
        · exact ReadBulk_le r1
        · simp only [Res.le]; exact le_refl _

theorem Read_progress (r : Reader) :
    (r.Read = .error (Err.EOF, r) ∧ r.rest.length = 0) ∨
    (0 < r.rest.length ∧ Res.le (r.rest.length - 1) r.Read) :=
  readValue_progress _ r (by omega)

theorem replayCallback_error (value : Value) (now : Int) (s : State) (e : Err)
    (h : replayCallback value now s = .error e) : e = Err.panic := by
  unfold replayCallback at h
  split at h
  · injection h with h; exact h.symm
  · simp only at h
    split at h
    · split at h
      · split at h <;> cases h
      · cases h
    · split at h <;> cases h

/-- With a budget above the number of unread bytes the loop of `Aof.Read`
ends, with a store or with a run-time panic. -/
theorem replayLoop_terminates : ∀ (f : Nat) (r : Reader) (now : Int) (s : State),
    r.rest.length < f →
    (∃ s1, replayLoop f r now s = .ok s1) ∨ replayLoop f r now s = .error Err.panic := by
  intro f
  induction f with
  | zero => intro r now s h; omega
  | succ f ih =>
    intro r now s h
    rcases Read_progress r with ⟨he, _⟩ | ⟨hpos, hle⟩
    · left
      exact ⟨s, by simp only [replayLoop, he]⟩
    · cases hres : r.Read with
      | ok p =>
        rw [hres] at hle
        obtain ⟨v, r1⟩ := p
        simp only [Res.le] at hle
        simp only [replayLoop, hres]
        cases hcb : replayCallback v now s with
        | error e =>
          right
          rw [replayCallback_error v now s e hcb]
        | ok s1 => exact ih r1 now s1 (by omega)
      | error p =>
        rw [hres] at hle
        obtain ⟨e, r1⟩ := p
        simp only [Res.le] at hle
        cases e with
        | EOF => left; exact ⟨s, by simp only [replayLoop, hres]⟩
        | NumError =>
          have := ih r1 now s (by omega)
          simpa only [replayLoop, hres] using this
        | panic => right; simp only [replayLoop, hres]
        | fuel => exact absurd rfl hle.1

/-! ## C15: replay of an arbitrary journal -/

/-- C15 (failing inputs): the journals `*0\r\n` (an empty Array), `x` (a byte
that is no marker) and `$1\r\na\r\n` (a top-level BulkString) decode without
error to a value with no elements, and the replay callback indexes
`value.Array[0]`: a run-time panic ends the process. The client path has the
guard the callback lacks: `handleRequest` skips a value that is not an Array
or has no elements. A bulk length above the allocation limit crashes replay
inside `make`. Moreover a decode error other than `io.EOF` does not abort
replay: after the malformed `*x\r\n` the later record `SET a 1` is still
dispatched. -/
theorem C15_replay_panics :
    (NewResp (str "*0\r\n")).Read = .ok (Value.array [], ⟨[], []⟩) ∧
    (replay (str "*0\r\n") 0 State.empty).map (fun _ => ()) = .error Err.panic ∧
    (replay (str "x") 0 State.empty).map (fun _ => ()) = .error Err.panic ∧
    (replay (str "$1\r\na\r\n") 0 State.empty).map (fun _ => ()) = .error Err.panic ∧
    (handleRequest (Value.array []) 0 0 Server.init).1 = none ∧
    (handleRequest Value.zero 0 0 Server.init).1 = none ∧
    (replay (str "$9223372036854775807\r\n") 0 State.empty).map (fun _ => ())
      = .error Err.panic ∧
    (NewResp (str "*x\r\n" ++ (req ["SET", "a", "1"]).Marshal)).Read
      = .error (Err.NumError, ⟨(req ["SET", "a", "1"]).Marshal, []⟩) ∧
    (replay (str "*x\r\n" ++ (req ["SET", "a", "1"]).Marshal) 0 State.empty).map
      (fun s => s.SETs (str "a")) = .ok (some (str "1")) := by
  refine ⟨by decide!, by decide!, by decide!, by decide!, by decide!, by decide!, by decide!,
    by decide!, by decide!⟩

/-- The part of C15 that holds: for every journal file content, clock and
store, replay terminates, with a store or with a run-time panic. -/
theorem replay_terminates (file : Bytes) (now : Int) (s : State) :
    (∃ s1, replay file now s = .ok s1) ∨ replay file now s = .error Err.panic :=
  replayLoop_terminates _ (NewResp file) now s (by simp [NewResp, Reader.rest])

/-- A record cut off inside a length line reads as `io.EOF`, and replay ends
with the store of the complete records before it. -/
theorem replay_truncated_record :
    (NewResp (str "*3\r\n$3")).Read = .error (Err.EOF, ⟨[], []⟩) ∧
    (replay ((req ["SET", "a", "1"]).Marshal ++ str "*3\r\n$3") 0 State.empty).map
      (fun s => s.SETs (str "a")) = .ok (some (str "1")) := by
  refine ⟨by decide!, by decide!⟩

/-! ## C16: replay of `SET`, `EXPIRESAT`, `HSET` records -/

theorem parseInt_itoa (T : Int) (hlo : -2 ^ 63 ≤ T) (hhi : T < 2 ^ 63) :
    parseInt (itoa T) = some T := by
  unfold itoa
  by_cases hneg : T < 0
  · rw [if_pos hneg]
    have hne := natToDec_ne_nil T.natAbs
    have hp := parseDigits_natToDec T.natAbs
    cases hd : natToDec T.natAbs with
    | nil => exact absurd hd hne
    | cons d ds =>
      rw [hd] at hp
      have hle : T.natAbs ≤ 9223372036854775808 := by
        norm_num at hlo
        omega
      simp only [parseInt, beq_self_eq_true, or_true, if_true, hp]
      simp only [Nat.reducePow, hle, if_true, Option.some.injEq]
      omega
  · rw [if_neg hneg]
    have h := parseInt_natToDec T.natAbs (by norm_num at hhi ⊢; omega)
    rw [h]
    have : (T.natAbs : Int) = T := by omega
    rw [this]

theorem Read_fill (x : Bytes) (h : x.length ≤ defaultBufSize) :
    (Reader.mk [] x).Read = (Reader.mk x []).Read := by
  unfold Reader.Read
  simp only [Reader.rest, List.nil_append, List.append_nil]
  exact readValue_fill _ x h

/-- One turn of the replay loop on a buffered record. -/
theorem replayLoop_record (v : Value) (hv : v.IsAB) (rest : Bytes) (f : Nat) (now : Int)
    (s : State) (hlen : (v.Marshal ++ rest).length ≤ defaultBufSize) :
    replayLoop (f + 1) ⟨v.Marshal ++ rest, []⟩ now s =
      match replayCallback v now s with
      | .error e => .error e
      | .ok s1 => replayLoop f ⟨rest, []⟩ now s1 := by
  have hl : v.Marshal.length ≤ (v.Marshal ++ rest).length := by simp
  have hr : (Reader.mk (v.Marshal ++ rest) []).Read = .ok (v, ⟨rest, []⟩) := by
    unfold Reader.Read
    exact readValue_Marshal v hv _ rest [] (by simp [Reader.rest]; omega)
      (by unfold defaultBufSize at hlen; omega)
  simp only [replayLoop, hr]

theorem replayLoop_end (f : Nat) (now : Int) (s : State) :
    replayLoop (f + 1) ⟨[], []⟩ now s = .ok s := by
  have hr : (Reader.mk [] []).Read = .error (Err.EOF, ⟨[], []⟩) := by decide
  simp only [replayLoop, hr]

theorem Handlers_SET : Handlers (str "SET") = some (fun a _ s => set a s) := by
  simp only [Handlers]
  rw [if_neg (by decide), if_pos trivial]

theorem Handlers_HSET : Handlers (str "HSET") = some (fun a _ s => hset a s) := by
  simp only [Handlers]
  rw [if_neg (by decide), if_neg (by decide), if_neg (by decide), if_pos trivial]

theorem replayCallback_SET (a v : Bytes) (now : Int) (s : State) :
    replayCallback (Value.array [Value.bulk (str "SET"), Value.bulk a, Value.bulk v]) now s
      = .ok { s with SETs := s.SETs.set a v } := by
  have hup : toUpper (str "SET") = str "SET" := by decide
  have hne : ¬ str "SET" = str "EXPIRESAT" := by decide
  simp only [replayCallback, Value.array, Value.Array, Bulk_bulk, hup, hne, if_false,
    Handlers_SET, set, List.length_cons, List.length_nil, argBulk, List.getD_cons_zero,
    List.getD_cons_succ]
  simp

theorem replayCallback_HSET (h f w : Bytes) (now : Int) (s : State) :
    replayCallback
        (Value.array [Value.bulk (str "HSET"), Value.bulk h, Value.bulk f, Value.bulk w]) now s
      = .ok (hset [Value.bulk h, Value.bulk f, Value.bulk w] s).2 := by
  have hup : toUpper (str "HSET") = str "HSET" := by decide
  have hne : ¬ str "HSET" = str "EXPIRESAT" := by decide
  simp only [replayCallback, Value.array, Value.Array, Bulk_bulk, hup, hne, if_false,
    Handlers_HSET]

/-- A replayed record `EXPIRESAT key T` with an integer text `T` sets the
expiry entry of the key, whatever the store holds. -/
theorem replayCallback_EXPIRESAT (key ttext : Bytes) (T now : Int) (s : State)
    (hT : parseInt ttext = some T) :
    replayCallback
        (Value.array [Value.bulk (str "EXPIRESAT"), Value.bulk key, Value.bulk ttext]) now s
      = .ok { s with Expiry := s.Expiry.set key T } := by
  have hup : toUpper (str "EXPIRESAT") = str "EXPIRESAT" := by decide
  simp only [replayCallback, Value.array, Value.Array, Bulk_bulk, hup, if_true,
    List.length_cons, List.length_nil, argBulk, List.getD_cons_zero, List.getD_cons_succ, hT]

theorem IsAB_bulks (l : List Bytes) : (Value.array (l.map Value.bulk)).IsAB := by
  apply Value.IsAB.array
  intro v hv
  obtain ⟨b, _, rfl⟩ := List.mem_map.mp hv
  exact Value.IsAB.bulk b

theorem Marshal_array_pos (vs : List Value) : 1 ≤ (Value.array vs).Marshal.length := by
  rw [Marshal_array]; simp

/-- The replay loop over the buffered `journal3`, with budget to spare. -/
theorem replayLoop_journal3 (a v ttext h f w : Bytes) (T now0 : Int) (g : Nat)
    (hT : parseInt ttext = some T)
    (hlen : (journal3 a v ttext h f w).length ≤ defaultBufSize) :
    replayLoop (g + 4) ⟨journal3 a v ttext h f w, []⟩ now0 State.empty
      = .ok (store3 a v T h f w) := by
  have hab1 := IsAB_bulks [str "SET", a, v]
  have hab2 := IsAB_bulks [str "EXPIRESAT", a, ttext]
  have hab3 := IsAB_bulks [str "HSET", h, f, w]
  simp only [List.map_cons, List.map_nil] at hab1 hab2 hab3
  unfold journal3 at hlen ⊢
  have hl2 : ((Value.array [Value.bulk (str "EXPIRESAT"), Value.bulk a,
      Value.bulk ttext]).Marshal ++ (Value.array [Value.bulk (str "HSET"), Value.bulk h,
      Value.bulk f, Value.bulk w]).Marshal).length ≤ defaultBufSize := by
    simp only [List.length_append] at hlen ⊢
    omega
  have hl3 : ((Value.array [Value.bulk (str "HSET"), Value.bulk h,
      Value.bulk f, Value.bulk w]).Marshal ++ []).length ≤ defaultBufSize := by
    simp only [List.length_append, List.length_nil] at hlen ⊢
    omega
  rw [replayLoop_record _ hab1 _ _ _ _ hlen, replayCallback_SET]
  simp only
  rw [replayLoop_record _ hab2 _ _ _ _ hl2, replayCallback_EXPIRESAT a ttext T _ _ hT]
  simp only
  have h3 := replayLoop_record _ hab3 [] (g + 1) now0
    { SETs := State.empty.SETs.set a v, HSETs := State.empty.HSETs,
      Expiry := State.empty.Expiry.set a T, ZSETs := State.empty.ZSETs } hl3
  rw [List.append_nil] at h3
  rw [h3, replayCallback_HSET]
  simp only
  rw [replayLoop_end]
  simp [hset, argBulk, store3, State.empty, Hash.set, Bulk_bulk]

/-- Replay of `journal3` that fits the read buffer. -/
theorem replay_journal3 (a v ttext h f w : Bytes) (T now0 : Int)
    (hT : parseInt ttext = some T)
    (hlen : (journal3 a v ttext h f w).length ≤ defaultBufSize) :
    replay (journal3 a v ttext h f w) now0 State.empty = .ok (store3 a v T h f w) := by
  unfold replay NewResp
  have h3 : 3 ≤ (journal3 a v ttext h f w).length := by
    unfold journal3
    have h1 := Marshal_array_pos [Value.bulk (str "SET"), Value.bulk a, Value.bulk v]
    have h2 := Marshal_array_pos [Value.bulk (str "EXPIRESAT"), Value.bulk a, Value.bulk ttext]
    have h3 := Marshal_array_pos [Value.bulk (str "HSET"), Value.bulk h, Value.bulk f,
      Value.bulk w]
    simp only [List.length_append]
    omega
  obtain ⟨g, hg⟩ : ∃ g, (journal3 a v ttext h f w).length + 1 = g + 4 :=
    ⟨(journal3 a v ttext h f w).length - 3, by omega⟩
  rw [hg]
  have hfirst : replayLoop (g + 4) ⟨[], journal3 a v ttext h f w⟩ now0 State.empty
      = replayLoop (g + 4) ⟨journal3 a v ttext h f w, []⟩ now0 State.empty := by
    simp only [replayLoop, Read_fill _ hlen]
  rw [hfirst]
  exact replayLoop_journal3 a v ttext h f w T now0 g hT hlen

/-- C16 (as stated, refuted): in the journal `SET a 1`,
`EXPIRESAT a 9223372036854775808`, `HSET h f v` the instant lies in the
future of clock 0 but outside the signed 64-bit range; replay skips the
record, and `TTL a` at clock 0 returns `-1` instead of the remaining time. -/
theorem C16_counterexample :
    (replay (journal3 (str "a") (str "1") (str "9223372036854775808") (str "h") (str "f")
      (str "v")) 0 State.empty).map (fun st => (ttl [Value.bulk (str "a")] 0 st).1)
      = .ok (Value.string (str "-1")) := by
  decide!

/-- C16 (amended): for a journal of at most 4096 bytes holding `SET a v`,
`EXPIRESAT a T` and `HSET h f w`, with `T` in the signed 64-bit range,
replay from the empty store succeeds; then at every clock `now` with
`0 <= now < T`, `GET a` returns `v`, `TTL a` returns the positive remaining
time `T - now` and `HGET h f` returns `w`, each leaving the store as it is.
In general a replayed `EXPIRESAT key T` record sets the expiry entry of the
key to `T` whatever the store holds. Replay works on the store only: it has
no access to the journal file. -/
theorem C16_replay_records (a v h f w : Bytes) (T now0 now : Int)
    (hTlo : -2 ^ 63 ≤ T) (hThi : T < 2 ^ 63) (hnow0 : 0 ≤ now) (hnow : now < T)
    (hlen : (journal3 a v (itoa T) h f w).length ≤ defaultBufSize) :
    replay (journal3 a v (itoa T) h f w) now0 State.empty = .ok (store3 a v T h f w) ∧
    get [Value.bulk a] now (store3 a v T h f w) = (Value.bulk v, store3 a v T h f w) ∧
    ttl [Value.bulk a] now (store3 a v T h f w)
      = (Value.string (itoa (T - now)), store3 a v T h f w) ∧
    0 < T - now ∧
    hget [Value.bulk h, Value.bulk f] now (store3 a v T h f w)
      = (Value.bulk w, store3 a v T h f w) ∧
    (∀ (s : State) (key : Bytes),
      replayCallback (Value.array
        [Value.bulk (str "EXPIRESAT"), Value.bulk key, Value.bulk (itoa T)]) now0 s
        = .ok { s with Expiry := s.Expiry.set key T }) := by
  have hT := parseInt_itoa T hTlo hThi
  have hnexp : ¬ now > T := by omega
  have hw : wrap64 (T - now) = T - now :=
    wrap64_of_range _ (by norm_num at hTlo hThi ⊢; omega) (by norm_num at hTlo hThi ⊢; omega)
  have hnn : ¬ T - now < 0 := by omega
  refine ⟨replay_journal3 a v (itoa T) h f w T now0 hT hlen, ?_, ?_, by omega, ?_,
    fun s key => replayCallback_EXPIRESAT key (itoa T) T now0 s hT⟩
  · simp [get, argBulk, Bulk_bulk, cleanupIfExpired, isExpired, store3, GoMap.set, hnexp]
  · simp [ttl, argBulk, Bulk_bulk, store3, GoMap.set, hw, hnn]
  · have hx : isExpired h now (store3 a v T h f w) = false := by
      unfold isExpired store3 GoMap.set State.empty
      simp only
      split
      · rfl
      · rename_i exp hexp
        split at hexp
        · injection hexp with hexp
          subst hexp
          simpa using hnexp
        · cases hexp
    simp only [hget, List.length_cons, List.length_nil, argBulk, List.getD_cons_zero,
      List.getD_cons_succ, Bulk_bulk, cleanupIfExpired, hx]
    simp [store3, GoMap.set, Hash.get]

/-- C16 (amended), at the journal `SET a 1`, `EXPIRESAT a 2000`, `HSET h f v`
and the clock 1000. -/
theorem C16_replay_records_witness :
    (-2 ^ 63 : Int) ≤ 2000 ∧ (2000 : Int) < 2 ^ 63 ∧ (0 : Int) ≤ 1000 ∧ (1000 : Int) < 2000 ∧
    (journal3 (str "a") (str "1") (itoa 2000) (str "h") (str "f") (str "v")).length
      ≤ defaultBufSize ∧
    replay (journal3 (str "a") (str "1") (itoa 2000) (str "h") (str "f") (str "v")) 0
      State.empty = .ok (store3 (str "a") (str "1") 2000 (str "h") (str "f") (str "v")) ∧
    get [Value.bulk (str "a")] 1000 (store3 (str "a") (str "1") 2000 (str "h") (str "f") (str "v"))
      = (Value.bulk (str "1"), store3 (str "a") (str "1") 2000 (str "h") (str "f") (str "v")) ∧
    ttl [Value.bulk (str "a")] 1000 (store3 (str "a") (str "1") 2000 (str "h") (str "f") (str "v"))
      = (Value.string (itoa (2000 - 1000)),
          store3 (str "a") (str "1") 2000 (str "h") (str "f") (str "v")) ∧
    (0 : Int) < 2000 - 1000 ∧
    hget [Value.bulk (str "h"), Value.bulk (str "f")] 1000
        (store3 (str "a") (str "1") 2000 (str "h") (str "f") (str "v"))
      = (Value.bulk (str "v"), store3 (str "a") (str "1") 2000 (str "h") (str "f") (str "v")) ∧
    (∀ (s : State) (key : Bytes),
      replayCallback (Value.array
        [Value.bulk (str "EXPIRESAT"), Value.bulk key, Value.bulk (itoa 2000)]) 0 s
        = .ok { s with Expiry := s.Expiry.set key 2000 }) :=
  ⟨by decide, by decide, by decide, by decide, by decide,
    C16_replay_records (str "a") (str "1") (str "h") (str "f") (str "v") 2000 0 1000
      (by decide) (by decide) (by decide) (by decide) (by decide)⟩

end Blueis
